import Mathlib

/-!
# Verification of the wiki-go document relocation subsystem

Shallow embedding of `internal/handlers/move.go` and `internal/auth/auth.go`
from the wiki-go repository.  Strings are modelled as `List Char` (Go strings
are byte sequences; the paths handled here are treated character-wise).
Filesystem-path functions from the Go standard library (`filepath.Clean`,
`filepath.Join`, `filepath.Dir`, `filepath.Base`, with GOOS=linux, separator
`'/'`) are modelled as executable Lean functions; `strings.ToLower` and
`strings.EqualFold` are modelled for the ASCII range, which covers every
comparison the handler performs against its ASCII constants.
-/

namespace WikiGo

/-- Convert a Lean string literal to the character-list representation. -/
def cs (s : String) : List Char := s.toList

/-! ## Characters and case folding (ASCII model of strings.ToLower / EqualFold) -/

/-- ASCII lower-casing of one character, modelling `strings.ToLower` on the
ASCII subset actually exercised by the handler. -/
def toLowerChar (c : Char) : Char :=
  if 'A' ≤ c ∧ c ≤ 'Z' then Char.ofNat (c.toNat + 32) else c

/-- `strings.ToLower` on a whole string (ASCII model). -/
def toLowerStr (p : List Char) : List Char := p.map toLowerChar

/-- `strings.EqualFold` (ASCII model): equality after case folding. -/
def eqFold (a b : List Char) : Bool := toLowerStr a == toLowerStr b

/-! ## Go `path.Clean` model (filepath with separator `'/'`)

`filepath.Clean` processes the path component-wise: empty components and `.`
are dropped, `..` pops the previous real component (or is kept at the front of
a relative path, or dropped at the root of an absolute path).  `goClean`
below is that algorithm, phrased over the component list obtained by
splitting on `'/'`; `cleanStep` is one step of the component scan, with the
output kept as a stack (head = most recently emitted component). -/

/-- The `..` path component. -/
def dotdot : List Char := ['.', '.']

/-- Split a character list on `'/'` (semantics of `strings.Split(s, "/")`:
the empty string yields `[[]]`, and separators at the ends yield empty
components). -/
def splitSlash : List Char → List (List Char)
  | [] => [[]]
  | c :: rest =>
    if c = '/' then [] :: splitSlash rest
    else
      match splitSlash rest with
      | [] => [[c]]
      | s :: ss => (c :: s) :: ss

/-- Join components with `'/'` (semantics of `strings.Join(l, "/")`). -/
def joinSlash : List (List Char) → List Char
  | [] => []
  | [c] => c
  | c :: cs => c ++ '/' :: joinSlash cs

/-- One step of the `Clean` component scan.  `st` is the stack of emitted
components, head first.  Mirrors the four cases of Go's `path.Clean` loop:
empty element, `.` element, `..` element (backtrack / keep / drop), and a
real element. -/
def cleanStep (rooted : Bool) (st : List (List Char)) (c : List Char) :
    List (List Char) :=
  if c = [] ∨ c = ['.'] then st
  else if c = dotdot then
    match st with
    | [] => if rooted then [] else [dotdot]
    | top :: rest => if top = dotdot then dotdot :: top :: rest else rest
  else c :: st

/-- Go `filepath.Clean` (GOOS=linux). -/
def goClean (p : List Char) : List Char :=
  if p = [] then ['.']
  else
    let rooted : Bool := p.head? = some '/'
    let st := (splitSlash p).foldl (cleanStep rooted) []
    let comps := st.reverse
    if rooted then '/' :: joinSlash comps
    else if comps = [] then ['.'] else joinSlash comps

/-- `strings.TrimPrefix(p, "/")`: drop one leading slash if present. -/
def trimPrefixSlash (p : List Char) : List Char :=
  if p.head? = some '/' then p.tail else p

/-- `strings.TrimSuffix(p, "/")`: drop one trailing slash if present. -/
def trimSuffixSlash (p : List Char) : List Char :=
  if p.getLast? = some '/' then p.dropLast else p

/-- `cleanPath` from `move.go`: `filepath.Clean`, then trim one leading and
one trailing `/`, then replace every `\` by `/`.  The empty string is
returned unchanged. -/
def cleanPath (p : List Char) : List Char :=
  if p = [] then []
  else
    let p1 := goClean p
    let p2 := trimPrefixSlash p1
    let p3 := trimSuffixSlash p2
    p3.map (fun c => if c = '\\' then '/' else c)

/-- Go `filepath.Join`: skip leading empty elements, join the rest with `/`
and `Clean` the result; all-empty input gives the empty string. -/
def goJoin : List (List Char) → List Char
  | [] => []
  | e :: rest => if e = [] then goJoin rest else goClean (joinSlash (e :: rest))

/-- Binary `filepath.Join`. -/
def goJoin2 (a b : List Char) : List Char := goJoin [a, b]

/-- The part of `p` up to and including the last `'/'` (empty when `p` has no
slash); this is the `dir` part that Go's `filepath.Dir` cleans. -/
def lastSlashSplit (p : List Char) : List Char :=
  (p.reverse.drop (p.reverse.takeWhile (· ≠ '/')).length).reverse

/-- Go `filepath.Dir`: `Clean` of everything up to the final slash
(`Dir("a") = "."`, `Dir("/a") = "/"`, `Dir("a/b") = "a"`). -/
def dirOf (p : List Char) : List Char := goClean (lastSlashSplit p)

/-- Go `filepath.Base`: strip trailing slashes and take the part after the
last remaining slash (`Base("") = "."`, `Base("///") = "/"`). -/
def baseOf (p : List Char) : List Char :=
  if p = [] then ['.']
  else
    let q := (p.reverse.dropWhile (· = '/')).reverse
    if q = [] then ['/']
    else (q.reverse.takeWhile (· ≠ '/')).reverse

/-! ## Auth model (`internal/auth/auth.go`)

The session store is the package-level `sessions` map guarded by `mu`;
a map from token to `Session` is modelled as an association list with
Go-map insert/lookup/delete semantics.  Token generation (`crypto/rand`)
is modelled by passing the generated token as an argument. -/

/-- `auth.Session` (the `CreatedAt` timestamp is an abstract number). -/
structure Session where
  username : String
  role : String
  createdAt : Nat
deriving DecidableEq, Repr

/-- The `sessions` map. -/
abbrev SessionStore := List (String × Session)

/-- Go map assignment `sessions[token] = s` (overwrites any previous entry). -/
def storeInsert (st : SessionStore) (token : String) (s : Session) :
    SessionStore :=
  (token, s) :: List.filter (fun e => e.1 ≠ token) st

/-- Go map read `sessions[token]` with its `exists` flag folded into
`Option`. -/
def storeLookup (st : SessionStore) (token : String) : Option Session :=
  (List.find? (fun e => e.1 = token) st).map (·.2)

/-- Go `delete(sessions, token)`. -/
def storeDelete (st : SessionStore) (token : String) : SessionStore :=
  List.filter (fun e => e.1 ≠ token) st

/-- The map update performed by `auth.CreateSession` once the random `token`
has been generated: store `{username, role, now}` under `token`.  (Cookie
emission is transport-level output and carries no store state.) -/
def createSession (st : SessionStore) (token : String) (username role : String)
    (now : Nat) : SessionStore :=
  storeInsert st token ⟨username, role, now⟩

/-- `auth.GetSession`: the request either carries no `session_token` cookie
(`none`) or carries token `t`; an unknown token yields `none`. -/
def getSessionTok (st : SessionStore) (cookie : Option String) :
    Option Session :=
  match cookie with
  | none => none
  | some t => storeLookup st t

/-- `auth.ClearSession`: with no cookie the store is untouched, otherwise the
cookie's token is deleted. -/
def clearSession (st : SessionStore) (cookie : Option String) : SessionStore :=
  match cookie with
  | none => st
  | some t => storeDelete st t

/-- `auth.RequireAuth`: public wikis admit every request; private wikis
require a session. -/
def requireAuth (wikiPrivate : Bool) (st : SessionStore)
    (cookie : Option String) : Bool :=
  if !wikiPrivate then true
  else (getSessionTok st cookie).isSome

/-- `auth.RequireRole`: role hierarchy admin > editor > viewer. -/
def requireRole (st : SessionStore) (cookie : Option String)
    (requiredRole : String) : Bool :=
  match getSessionTok st cookie with
  | none => false
  | some s =>
    if requiredRole = "admin" then s.role == "admin"
    else if requiredRole = "editor" then
      s.role == "admin" || s.role == "editor"
    else if requiredRole = "viewer" then
      s.role == "admin" || s.role == "editor" || s.role == "viewer"
    else false

/-! ## Filesystem model

The handler observes the filesystem only through `os.Stat`, `os.ReadDir`,
`os.MkdirAll` and `os.Rename`.  The state is a list of entries (path plus
directory flag); a path exists when it is an entry or an ancestor of an
entry (parents of entries exist implicitly, as on a real filesystem), and
`.` and `/` (the working directory and the root) always exist.  Paths are
compared exactly, i.e. the filesystem is case-sensitive. -/

/-- One filesystem entry. -/
structure FsEntry where
  path : List Char
  isDir : Bool
deriving DecidableEq, Repr

/-- Filesystem state. -/
abbrev FS := List FsEntry

/-- `p` is `q` or a path-ancestor of `q` (`q` starts with `p ++ "/"`). -/
def isPrefPath (p q : List Char) : Bool :=
  p == q || List.isPrefixOf (p ++ ['/']) q

/-- `p` is a strict path-ancestor of `q`. -/
def isStrictPref (p q : List Char) : Bool :=
  List.isPrefixOf (p ++ ['/']) q

/-- `os.Stat(p)` succeeds: `p` is the working directory `.`, the root `/`,
an entry, or an ancestor of an entry.  `Stat("")` fails. -/
def fsExistsP (fs : FS) (p : List Char) : Bool :=
  if p = [] then false
  else p = ['.'] || p = ['/'] || List.any fs (fun e => isPrefPath p e.path)

/-- `Stat(p).IsDir()`: `p` is a directory entry or a strict ancestor of an
entry (implicit directories), or the root / working directory. -/
def fsIsDirP (fs : FS) (p : List Char) : Bool :=
  p = ['.'] || p = ['/'] ||
    List.any fs (fun e => (e.path == p && e.isDir) || isStrictPref p e.path)

/-- `len(os.ReadDir(p)) > 0`: some entry lies strictly below `p`. -/
def fsNonemptyP (fs : FS) (p : List Char) : Bool :=
  List.any fs (fun e => isStrictPref p e.path)

/-- `os.MkdirAll(p, 0755)`: no-op when `p` already exists as a directory,
error (`none`) when `p` exists as a non-directory, otherwise record the new
directory. -/
def fsMkdirAll (fs : FS) (p : List Char) : Option FS :=
  if fsExistsP fs p then
    if fsIsDirP fs p then some fs else none
  else some (⟨p, true⟩ :: fs)

/-- `os.Rename(src, dst)`: error when `src` does not exist or `dst` is a
non-empty directory; otherwise every entry at or below `src` is rebased onto
`dst`, and an empty entry previously at `dst` is overwritten. -/
def fsRename (fs : FS) (src dst : List Char) : Option FS :=
  if !fsExistsP fs src then none
  else if fsNonemptyP fs dst then none
  else some ((List.filter (fun e => e.path ≠ dst) fs).map (fun e =>
    if isPrefPath src e.path then
      ⟨dst ++ e.path.drop src.length, e.isDir⟩
    else e))

/-! ## The move handler (`internal/handlers/move.go`)

`moveDocumentHandler` is `MoveDocumentHandler` stage by stage.  Inputs:
configuration (the fields it reads), filesystem, session store, request
method, `session_token` cookie, and the decoded body (`none` models a JSON
decoding error).  The JSON response and status code are collected in
`MoveResult` together with the filesystem left behind. -/

/-- The configuration fields the relocation subsystem reads. -/
structure Config where
  rootDir : List Char
  documentsDir : List Char
  wikiPrivate : Bool

/-- `MoveRequest` (decoded request body). -/
structure MoveRequest where
  sourcePath : List Char
  targetPath : List Char
  newSlug : List Char
deriving DecidableEq, Repr

/-- Wire response (`MoveResponse` plus HTTP status) and resulting
filesystem. -/
structure MoveResult where
  status : Nat
  success : Bool
  message : String
  newPath : List Char
  oldPath : List Char
  fs : FS

/-- Operation classification, lines 89–104 of `move.go`: returns
`(isRename, moveToRoot, isMove)` for the cleaned source/target paths and the
raw new slug. -/
def classify (srcP tgtP slug : List Char) : Bool × Bool × Bool :=
  let isRename : Bool := slug ≠ []
  let sourceDir := dirOf srcP
  let moveToRoot : Bool := tgtP = [] && sourceDir ≠ ['.']
  let isMove : Bool := tgtP ≠ [] || moveToRoot
  (isRename, moveToRoot, isMove)

/-- Resolved target path (`newPath`), lines 132–167 of `move.go`.  `none` is
the defensive `else` branch (rejected with 400). -/
def computeNewPath (srcP tgtP slug : List Char) (isRename isMove : Bool) :
    Option (List Char) :=
  if isRename && !isMove then
    let parentDir := dirOf srcP
    let parentDir := if parentDir = ['.'] then [] else parentDir
    some (goJoin2 parentDir slug)
  else if isMove && !isRename then
    let sourceName := baseOf srcP
    some (if tgtP = [] then sourceName else goJoin2 tgtP sourceName)
  else if isMove && isRename then
    some (if tgtP = [] then slug else goJoin2 tgtP slug)
  else none

/-- Conflict detection, lines 172–200 of `move.go`: returns the conflict
message when the request must be rejected with 409, and `none` otherwise. -/
def conflictCheck (fs : FS) (fullSourcePath fullTargetPath srcP slug :
    List Char) : Option String :=
  if fullTargetPath ≠ fullSourcePath then
    let targetDocPath := goJoin2 fullTargetPath (cs "document.md")
    if fsExistsP fs targetDocPath &&
        (toLowerStr (baseOf srcP) ≠ toLowerStr slug ||
          dirOf fullSourcePath = dirOf fullTargetPath) then
      some "A document already exists at the target location"
    else if fsIsDirP fs fullTargetPath && fsNonemptyP fs fullTargetPath then
      some "Target directory already exists and is not empty"
    else none
  else none

/-- One secondary store relocation, lines 252–262 / 269–279 of `move.go`:
skip silently when the source is absent; otherwise create the target's
parent and rename, downgrading any failure to a warning (`true` in the
second component). -/
def mirrorSecondary (fs : FS) (src dst : List Char) : FS × Bool :=
  if fsExistsP fs src then
    match fsMkdirAll fs (dirOf dst) with
    | none => (fs, true)
    | some fsa =>
      match fsRename fsa src dst with
      | none => (fsa, true)
      | some fsb => (fsb, false)
  else (fs, false)

/-- Versions-directory path for a document path, lines 229–249 of
`move.go`. -/
def versionsPathFor (rootDir p : List Char) : List Char :=
  if p = cs "pages/home" then
    goJoin [rootDir, cs "versions", cs "pages", cs "home"]
  else if List.isPrefixOf (cs "documents/") p then
    goJoin [rootDir, cs "versions", p]
  else goJoin [rootDir, cs "versions", cs "documents", p]

/-- Lines 226–283 of `move.go`: after the successful primary rename, mirror
the versions directory and then the comments directory (each best-effort)
and report success. -/
def afterPrimary (cfg : Config) (fs2 : FS) (srcP newPath : List Char) :
    MoveResult :=
  let vSrc := versionsPathFor cfg.rootDir srcP
  let vDst := versionsPathFor cfg.rootDir newPath
  let fs3 := (mirrorSecondary fs2 vSrc vDst).1
  let cSrc := goJoin [cfg.rootDir, cs "comments", srcP]
  let cDst := goJoin [cfg.rootDir, cs "comments", newPath]
  let fs4 := (mirrorSecondary fs3 cSrc cDst).1
  ⟨200, true, "Document moved successfully", newPath, srcP, fs4⟩

/-- Lines 172–283 of `move.go`: conflict check, target-directory creation,
same-path guard, primary rename, then the secondary mirrors. -/
def moveFinish (cfg : Config) (fs : FS) (srcP slug newPath : List Char)
    (fullSourcePath fullTargetPath : List Char) : MoveResult :=
  match conflictCheck fs fullSourcePath fullTargetPath srcP slug with
  | some msg => ⟨409, false, msg, [], [], fs⟩
  | none =>
    let targetDir := dirOf fullTargetPath
    match fsMkdirAll fs targetDir with
    | none => ⟨500, false, "Failed to create target directory", [], [], fs⟩
    | some fs1 =>
      if fullSourcePath = fullTargetPath then
        ⟨400, false, "Source and target paths are the same", [], [], fs1⟩
      else
        match fsRename fs1 fullSourcePath fullTargetPath with
        | none => ⟨500, false, "Failed to move", [], [], fs1⟩
        | some fs2 => afterPrimary cfg fs2 srcP newPath

/-- Lines 89–170 of `move.go`: classification, source existence, target
computation, then `moveFinish`. -/
def moveClassified (cfg : Config) (fs : FS) (srcP tgtP slug : List Char) :
    MoveResult :=
  let cl := classify srcP tgtP slug
  let isRename := cl.1
  let isMove := cl.2.2
  let documentDir := goJoin2 cfg.rootDir cfg.documentsDir
  let fullSourcePath := goJoin2 documentDir srcP
  if !fsExistsP fs fullSourcePath then
    ⟨404, false, "Source document or category not found", [], [], fs⟩
  else
    match computeNewPath srcP tgtP slug isRename isMove with
    | none =>
      ⟨400, false, "Either new slug or target path must be provided", [], [],
        fs⟩
    | some newPath =>
      moveFinish cfg fs srcP slug newPath fullSourcePath
        (goJoin2 documentDir newPath)

/-- `MoveDocumentHandler` (lines 30–283 of `move.go`). -/
def moveDocumentHandler (cfg : Config) (fs : FS) (store : SessionStore)
    (method : String) (cookie : Option String) (body : Option MoveRequest) :
    MoveResult :=
  if method ≠ "POST" then ⟨405, false, "Method not allowed", [], [], fs⟩
  else
    match getSessionTok store cookie with
    | none =>
      ⟨401, false, "Unauthorized. Admin or editor access required.", [], [],
        fs⟩
    | some _ =>
      match body with
      | none => ⟨400, false, "Invalid request format", [], [], fs⟩
      | some req =>
        if req.sourcePath = [] then
          ⟨400, false, "Source path is required", [], [], fs⟩
        else
          let srcP := cleanPath req.sourcePath
          let tgtP := cleanPath req.targetPath
          if tgtP = [] && req.newSlug = [] then
            ⟨400, false, "Either target path or new slug must be provided",
              [], [], fs⟩
          else if srcP = [] || srcP = ['/'] || srcP = cs "pages/home" ||
              eqFold srcP (cs "pages/home") ||
              List.isSuffixOf (cs "/homepage") srcP then
            ⟨400, false, "Cannot move or rename the home page", [], [], fs⟩
          else if tgtP = cs "pages/home" || eqFold tgtP (cs "pages/home") then
            ⟨400, false, "Cannot move or rename to the home page location",
              [], [], fs⟩
          else moveClassified cfg fs srcP tgtP req.newSlug

/-! ## Predicates describing clean paths

`goClean` outputs (apart from `.` and `/`) are joins of component lists in
which every component is non-empty, slash-free and distinct from `.`, and
`..` components occur only as a leading run.  These predicates name that
shape. -/

/-- `c` contains no `'/'`. -/
def noSlash : List Char → Bool
  | [] => true
  | c :: r => c ≠ '/' && noSlash r

/-- A well-formed real path component: non-empty, slash-free, neither `.`
nor `..`. -/
def isGoodSeg (c : List Char) : Bool :=
  c ≠ [] && c ≠ ['.'] && c ≠ dotdot && noSlash c

/-- Component lists of clean relative paths: a run of `..` followed by good
components. -/
def CleanComps (L : List (List Char)) : Prop :=
  ∃ ds gs, L = ds ++ gs ∧ (∀ c ∈ ds, c = dotdot) ∧
    (∀ c ∈ gs, isGoodSeg c = true)

/-- Decidable check for `CleanComps`. -/
def cleanCompsB (L : List (List Char)) : Bool :=
  (L.dropWhile (fun c => c = dotdot)).all isGoodSeg

/-! ## Spec-side resolved-target definitions (for the refinement claim about
the resolved target path)

Each follows the specification's words, not the code: (rename only) "keep
source's parent segment, replace final segment with `newSlug`"; (move only)
"keep source's final segment (the slug), place it under `targetPath` (or at
the root if `targetPath` is empty)"; (move and rename) "place `newSlug`
under `targetPath` (or at the root if empty)". -/

/-- Spec wording, rename only: source's segments with the final one replaced
by the new slug. -/
def specRenameOnly (srcP slug : List Char) : List Char :=
  joinSlash ((splitSlash srcP).dropLast ++ [slug])

/-- Spec wording, move only: the source's final segment placed under the
target path (or at the root). -/
def specMoveOnly (srcP tgtP : List Char) : List Char :=
  let seg := (splitSlash srcP).getLastD []
  if tgtP = [] then seg else tgtP ++ '/' :: seg

/-- Spec wording, move and rename: the new slug placed under the target path
(or at the root). -/
def specMoveRename (tgtP slug : List Char) : List Char :=
  if tgtP = [] then slug else tgtP ++ '/' :: slug

/-- Shape invariant of the `cleanStep` stack: good components above a run of
`..` components, and no `..` at all when rooted. -/
def StackOK (rooted : Bool) (st : List (List Char)) : Prop :=
  ∃ gs ds, st = gs ++ ds ∧ (∀ c ∈ gs, isGoodSeg c = true) ∧
    (∀ c ∈ ds, c = dotdot) ∧ (rooted = true → ds = [])

/-! ## Lemmas: splitting and joining on `/` -/

theorem noSlash_iff {c : List Char} : noSlash c = true ↔ '/' ∉ c := by
  induction c with
  | nil => simp [noSlash]
  | cons a r ih =>
    simp only [noSlash, Bool.and_eq_true, decide_eq_true_eq, ih,
      List.mem_cons, not_or]
    exact ⟨fun ⟨h1, h2⟩ => ⟨fun h => h1 h.symm, h2⟩,
      fun ⟨h1, h2⟩ => ⟨fun h => h1 h.symm, h2⟩⟩

theorem splitSlash_ne_nil (p : List Char) : splitSlash p ≠ [] := by
  cases p with
  | nil => simp [splitSlash]
  | cons a r =>
    simp only [splitSlash]
    by_cases h : a = '/'
    · simp [h]
    · simp only [h, if_false]
      cases splitSlash r <;> simp

theorem noSlash_of_mem_splitSlash {p : List Char} :
    ∀ c ∈ splitSlash p, noSlash c = true := by
  induction p with
  | nil => intro c hc; simp only [splitSlash, List.mem_singleton] at hc
           subst hc; rfl
  | cons a r ih =>
    intro c hc
    by_cases h : a = '/'
    · simp only [splitSlash, h, if_true, List.mem_cons] at hc
      rcases hc with rfl | hc
      · rfl
      · exact ih c hc
    · simp only [splitSlash, h, if_false] at hc
      cases hr : splitSlash r with
      | nil => exact absurd hr (splitSlash_ne_nil r)
      | cons s ss =>
        rw [hr] at hc
        simp only [List.mem_cons] at hc
        rcases hc with rfl | hc
        · have hs : noSlash s = true := ih s (by rw [hr]; exact List.mem_cons_self s ss)
          simp [noSlash, h, hs]
        · exact ih c (by rw [hr]; exact List.mem_cons_of_mem s hc)

theorem mem_of_mem_splitSlash {p c : List Char} {ch : Char}
    (hc : c ∈ splitSlash p) (hch : ch ∈ c) : ch ∈ p := by
  induction p generalizing c with
  | nil =>
    simp only [splitSlash, List.mem_singleton] at hc
    subst hc; exact absurd hch (List.not_mem_nil ch)
  | cons a r ih =>
    by_cases h : a = '/'
    · simp only [splitSlash, h, if_true, List.mem_cons] at hc
      rcases hc with rfl | hc
      · exact absurd hch (List.not_mem_nil ch)
      · exact List.mem_cons_of_mem a (ih hc hch)
    · simp only [splitSlash, h, if_false] at hc
      cases hr : splitSlash r with
      | nil => exact absurd hr (splitSlash_ne_nil r)
      | cons s ss =>
        rw [hr] at hc
        simp only [List.mem_cons] at hc
        rcases hc with rfl | hc
        · rcases List.mem_cons.mp hch with rfl | hch'
          · exact List.mem_cons_self ch r
          · exact List.mem_cons_of_mem a
              (ih (c := s) (by rw [hr]; exact List.mem_cons_self s ss) hch')
        · exact List.mem_cons_of_mem a
            (ih (by rw [hr]; exact List.mem_cons_of_mem s hc) hch)

theorem splitSlash_of_noSlash {c : List Char} (h : noSlash c = true) :
    splitSlash c = [c] := by
  induction c with
  | nil => rfl
  | cons a r ih =>
    simp only [noSlash, Bool.and_eq_true, decide_eq_true_eq] at h
    simp only [splitSlash, h.1, if_false, ih h.2]

theorem splitSlash_append {c t : List Char} (h : noSlash c = true) :
    splitSlash (c ++ '/' :: t) = c :: splitSlash t := by
  induction c with
  | nil => simp [splitSlash]
  | cons a r ih =>
    simp only [noSlash, Bool.and_eq_true, decide_eq_true_eq] at h
    simp only [List.cons_append, splitSlash, h.1, if_false, List.append_eq]
    rw [ih h.2]

theorem joinSlash_cons {c : List Char} {L : List (List Char)} (h : L ≠ []) :
    joinSlash (c :: L) = c ++ '/' :: joinSlash L := by
  cases L with
  | nil => exact absurd rfl h
  | cons d L' => rfl

theorem joinSlash_splitSlash (p : List Char) :
    joinSlash (splitSlash p) = p := by
  induction p with
  | nil => rfl
  | cons a r ih =>
    by_cases h : a = '/'
    · subst h
      simp only [splitSlash, if_true]
      rw [joinSlash_cons (splitSlash_ne_nil r), ih]
      rfl
    · simp only [splitSlash, h, if_false]
      cases hr : splitSlash r with
      | nil => exact absurd hr (splitSlash_ne_nil r)
      | cons s ss =>
        rw [hr] at ih
        cases ss with
        | nil => simpa [joinSlash] using ih
        | cons s2 ss2 =>
          rw [joinSlash_cons (by simp), List.cons_append,
            ← joinSlash_cons (by simp : (s2 :: ss2 : List (List Char)) ≠ []),
            ih]

theorem splitSlash_joinSlash {L : List (List Char)}
    (hL : ∀ c ∈ L, noSlash c = true) (h0 : L ≠ []) :
    splitSlash (joinSlash L) = L := by
  induction L with
  | nil => exact absurd rfl h0
  | cons c L' ih =>
    cases L' with
    | nil =>
      exact (splitSlash_of_noSlash (hL c (List.mem_cons_self c [])) :
        splitSlash (joinSlash [c]) = [c])
    | cons d L'' =>
      rw [joinSlash_cons (by simp),
        splitSlash_append (hL c (List.mem_cons_self c _)),
        ih (fun x hx => hL x (List.mem_cons_of_mem c hx)) (by simp)]

theorem splitSlash_concat_slash (x : List Char) :
    splitSlash (x ++ ['/']) = splitSlash x ++ [[]] := by
  induction x with
  | nil => rfl
  | cons a r ih =>
    by_cases h : a = '/'
    · simp only [List.cons_append, splitSlash, h, if_true, List.append_eq]
      rw [ih]
    · simp only [List.cons_append, splitSlash, h, if_false, List.append_eq]
      rw [ih]
      cases hr : splitSlash r with
      | nil => exact absurd hr (splitSlash_ne_nil r)
      | cons s ss => simp

theorem joinSlash_concat {M : List (List Char)} {b : List Char}
    (h : M ≠ []) : joinSlash (M ++ [b]) = joinSlash M ++ '/' :: b := by
  induction M with
  | nil => exact absurd rfl h
  | cons m M' ih =>
    cases M' with
    | nil => rfl
    | cons m2 M'' =>
      rw [List.cons_append, joinSlash_cons (by simp),
        joinSlash_cons (by simp : (m2 :: M'' : List (List Char)) ≠ []),
        ih (by simp), List.append_assoc]
      rfl

theorem joinSlash_ne_nil {L : List (List Char)}
    (h : ∀ c ∈ L, c ≠ []) (h0 : L ≠ []) : joinSlash L ≠ [] := by
  cases L with
  | nil => exact absurd rfl h0
  | cons c L' =>
    cases L' with
    | nil => exact h c (List.mem_cons_self c [])
    | cons d L'' =>
      rw [joinSlash_cons (by simp)]
      simp

theorem joinSlash_head {c : List Char} {L : List (List Char)} (h : c ≠ []) :
    (joinSlash (c :: L)).head? = c.head? := by
  cases L with
  | nil => rfl
  | cons d L' =>
    rw [joinSlash_cons (by simp)]
    cases c with
    | nil => exact absurd rfl h
    | cons a r => rfl

theorem joinSlash_getLast {L : List (List Char)}
    (h : ∀ c ∈ L, c ≠ [] ∧ noSlash c = true) (h0 : L ≠ []) :
    (joinSlash L).getLast? ≠ some '/' := by
  induction L with
  | nil => exact absurd rfl h0
  | cons c L' ih =>
    cases L' with
    | nil =>
      intro hlast
      obtain ⟨hc, hns⟩ := h c (List.mem_cons_self c [])
      obtain ⟨l', hl'⟩ := List.getLast?_eq_some_iff.mp hlast
      exact noSlash_iff.mp hns
        (by rw [show joinSlash [c] = c from rfl] at hl'
            rw [hl']; simp)
    | cons d L'' =>
      have hj : joinSlash (d :: L'') ≠ [] :=
        joinSlash_ne_nil
          (fun x hx => (h x (List.mem_cons_of_mem c hx)).1) (by simp)
      have ihd := ih (fun x hx => h x (List.mem_cons_of_mem c hx)) (by simp)
      rw [joinSlash_cons (by simp), List.getLast?_append]
      cases hjj : joinSlash (d :: L'') with
      | nil => exact absurd hjj hj
      | cons y ys =>
        rw [List.getLast?_cons_cons]
        rw [hjj] at ihd
        cases hys : (y :: ys).getLast? with
        | none => simp [List.getLast?_eq_none_iff] at hys
        | some z =>
          rw [hys] at ihd
          intro hcontra
          rw [show (Option.some z).or (List.getLast? c) = some z from rfl]
            at hcontra
          exact ihd hcontra

theorem mem_joinSlash {L : List (List Char)} {ch : Char}
    (h : ch ∈ joinSlash L) : ch = '/' ∨ ∃ c ∈ L, ch ∈ c := by
  induction L with
  | nil => exact absurd h (List.not_mem_nil ch)
  | cons c L' ih =>
    cases L' with
    | nil =>
      exact Or.inr ⟨c, List.mem_cons_self c [], h⟩
    | cons d L'' =>
      rw [joinSlash_cons (by simp)] at h
      rcases List.mem_append.mp h with hc | hrest
      · exact Or.inr ⟨c, List.mem_cons_self c _, hc⟩
      · rcases List.mem_cons.mp hrest with rfl | hj
        · exact Or.inl rfl
        · rcases ih hj with h1 | ⟨x, hx, hchx⟩
          · exact Or.inl h1
          · exact Or.inr ⟨x, List.mem_cons_of_mem c hx, hchx⟩

/-! ## Lemmas: the `Clean` component scan -/

theorem isGoodSeg_iff {c : List Char} :
    isGoodSeg c = true ↔
      c ≠ [] ∧ c ≠ ['.'] ∧ c ≠ dotdot ∧ noSlash c = true := by
  simp [isGoodSeg, Bool.and_eq_true, decide_eq_true_eq, and_assoc]

theorem noSlash_dotdot : noSlash dotdot = true := by decide

theorem stackOK_nil (rooted : Bool) : StackOK rooted [] :=
  ⟨[], [], rfl, by simp, by simp, fun _ => rfl⟩

theorem cleanStep_good {rooted : Bool} {st : List (List Char)} {c : List Char}
    (h : isGoodSeg c = true) : cleanStep rooted st c = c :: st := by
  obtain ⟨h1, h2, h3, _⟩ := isGoodSeg_iff.mp h
  unfold cleanStep
  rw [if_neg (by simp [h1, h2]), if_neg h3]

theorem cleanStep_dotdot_all {rooted : Bool} {st : List (List Char)}
    (hst : ∀ c ∈ st, c = dotdot) (hroot : rooted = false) :
    cleanStep rooted st dotdot = dotdot :: st := by
  unfold cleanStep
  rw [if_neg (by simp [dotdot]), if_pos rfl]
  cases st with
  | nil => simp [hroot]
  | cons t st' =>
    rw [hst t (List.mem_cons_self t st')]
    simp

theorem stackOK_step {rooted : Bool} {st : List (List Char)} {c : List Char}
    (hok : StackOK rooted st) (hns : noSlash c = true) :
    StackOK rooted (cleanStep rooted st c) := by
  obtain ⟨gs, ds, rfl, hg, hd, hr⟩ := hok
  by_cases h1 : c = [] ∨ c = ['.']
  · rw [show cleanStep rooted (gs ++ ds) c = gs ++ ds by
      unfold cleanStep; rw [if_pos h1]]
    exact ⟨gs, ds, rfl, hg, hd, hr⟩
  · by_cases h2 : c = dotdot
    · subst h2
      unfold cleanStep
      rw [if_neg h1, if_pos rfl]
      cases gs with
      | nil =>
        cases ds with
        | nil =>
          cases hroot : rooted
          · exact ⟨[], [dotdot], by simp, by simp, by simp, by simp [hroot]⟩
          · exact ⟨[], [], by simp, by simp, by simp, fun _ => rfl⟩
        | cons d ds' =>
          have hdd : d = dotdot := hd d (List.mem_cons_self d ds')
          simp only [List.nil_append, hdd, if_pos rfl]
          refine ⟨[], dotdot :: dotdot :: ds', by simp, by simp, ?_, ?_⟩
          · intro x hx
            rcases List.mem_cons.mp hx with rfl | hx
            · rfl
            · rcases List.mem_cons.mp hx with rfl | hx
              · rfl
              · exact hd x (List.mem_cons_of_mem d hx)
          · intro hcontra
            exact absurd (hr hcontra) (by simp)
      | cons g gs' =>
        have hgood := hg g (List.mem_cons_self g gs')
        have hgne : g ≠ dotdot := (isGoodSeg_iff.mp hgood).2.2.1
        simp only [List.cons_append, if_neg hgne]
        exact ⟨gs', ds, rfl,
          fun x hx => hg x (List.mem_cons_of_mem g hx), hd, hr⟩
    · have hgood : isGoodSeg c = true := by
        rw [isGoodSeg_iff]
        push_neg at h1
        exact ⟨h1.1, h1.2, h2, hns⟩
      rw [cleanStep_good hgood]
      exact ⟨c :: gs, ds, rfl, by
        intro x hx
        rcases List.mem_cons.mp hx with rfl | hx
        · exact hgood
        · exact hg x hx, hd, hr⟩

theorem stackOK_foldl {rooted : Bool} {l : List (List Char)} :
    ∀ {st : List (List Char)}, (∀ c ∈ l, noSlash c = true) →
    StackOK rooted st → StackOK rooted (l.foldl (cleanStep rooted) st) := by
  induction l with
  | nil => intro st _ hok; exact hok
  | cons c l' ih =>
    intro st hl hok
    rw [List.foldl_cons]
    exact ih (fun x hx => hl x (List.mem_cons_of_mem c hx))
      (stackOK_step hok (hl c (List.mem_cons_self c l')))

theorem comps_facts {L : List (List Char)} (hL : CleanComps L) :
    ∀ c ∈ L, c ≠ [] ∧ noSlash c = true := by
  obtain ⟨ds, gs, rfl, hd, hg⟩ := hL
  intro c hc
  rcases List.mem_append.mp hc with hc | hc
  · rw [hd c hc]; exact ⟨by simp [dotdot], noSlash_dotdot⟩
  · obtain ⟨h1, _, _, h4⟩ := isGoodSeg_iff.mp (hg c hc)
    exact ⟨h1, h4⟩

theorem cleanComps_head {L : List (List Char)} (hL : CleanComps L)
    (h0 : L ≠ []) : (joinSlash L).head? ≠ some '/' := by
  cases L with
  | nil => exact absurd rfl h0
  | cons c L' =>
    obtain ⟨hc, hns⟩ := comps_facts hL c (List.mem_cons_self c L')
    rw [joinSlash_head hc]
    cases c with
    | nil => exact absurd rfl hc
    | cons a r =>
      have : a ≠ '/' := by
        intro hcontra
        exact noSlash_iff.mp hns (hcontra ▸ List.mem_cons_self a r)
      simpa using this

theorem foldl_dotdots {ds : List (List Char)} (hds : ∀ c ∈ ds, c = dotdot) :
    ∀ {st : List (List Char)}, (∀ c ∈ st, c = dotdot) →
    ds.foldl (cleanStep false) st = ds.reverse ++ st := by
  induction ds with
  | nil => intro st _; simp
  | cons d ds' ih =>
    intro st hst
    have hd : d = dotdot := hds d (List.mem_cons_self d ds')
    rw [List.foldl_cons, hd, cleanStep_dotdot_all hst rfl]
    rw [ih (fun x hx => hds x (List.mem_cons_of_mem d hx))
      (by intro x hx
          rcases List.mem_cons.mp hx with rfl | hx
          · rfl
          · exact hst x hx)]
    simp [hd]

theorem foldl_goods {r : Bool} {gs : List (List Char)}
    (hgs : ∀ c ∈ gs, isGoodSeg c = true) :
    ∀ {st : List (List Char)}, gs.foldl (cleanStep r) st = gs.reverse ++ st := by
  induction gs with
  | nil => intro st; simp
  | cons g gs' ih =>
    intro st
    rw [List.foldl_cons, cleanStep_good (hgs g (List.mem_cons_self g gs')),
      ih (fun x hx => hgs x (List.mem_cons_of_mem g hx))]
    simp

/-- Characterisation of `goClean` outputs: `.`, or an absolute path with
good components, or a non-empty clean relative path. -/
theorem goClean_form (p : List Char) (hp : p ≠ []) :
    goClean p = ['.'] ∨
    (∃ L, (∀ c ∈ L, isGoodSeg c = true) ∧ goClean p = '/' :: joinSlash L) ∨
    (∃ L, CleanComps L ∧ L ≠ [] ∧ goClean p = joinSlash L) := by
  obtain ⟨gs, ds, hst, hg, hd, hr⟩ :
      StackOK (decide (p.head? = some '/'))
        ((splitSlash p).foldl (cleanStep (decide (p.head? = some '/'))) []) :=
    stackOK_foldl (noSlash_of_mem_splitSlash) (stackOK_nil _)
  rw [show goClean p =
      (if (decide (p.head? = some '/')) = true then
        '/' :: joinSlash (((splitSlash p).foldl
          (cleanStep (decide (p.head? = some '/'))) []).reverse)
      else if (((splitSlash p).foldl
          (cleanStep (decide (p.head? = some '/'))) []).reverse) = [] then ['.']
      else joinSlash (((splitSlash p).foldl
          (cleanStep (decide (p.head? = some '/'))) []).reverse)) by
    unfold goClean
    rw [if_neg hp]]
  rw [hst]
  cases hroot : decide (p.head? = some '/') with
  | true =>
    rw [if_pos rfl]
    have hds : ds = [] := hr hroot
    subst hds
    refine Or.inr (Or.inl ⟨gs.reverse, ?_, by simp⟩)
    intro c hc
    exact hg c (List.mem_reverse.mp hc)
  | false =>
    rw [if_neg (by simp)]
    by_cases hemp : (gs ++ ds).reverse = []
    · rw [if_pos hemp]
      exact Or.inl rfl
    · rw [if_neg hemp]
      refine Or.inr (Or.inr ⟨(gs ++ ds).reverse, ?_, hemp, rfl⟩)
      refine ⟨ds.reverse, gs.reverse, by simp, ?_, ?_⟩
      · intro c hc; exact hd c (List.mem_reverse.mp hc)
      · intro c hc; exact hg c (List.mem_reverse.mp hc)

/-- `Clean` is the identity on joined clean component lists. -/
theorem goClean_joinSlash {L : List (List Char)} (hL : CleanComps L)
    (h0 : L ≠ []) : goClean (joinSlash L) = joinSlash L := by
  have hfacts := comps_facts hL
  have hne : joinSlash L ≠ [] :=
    joinSlash_ne_nil (fun c hc => (hfacts c hc).1) h0
  have hhead := cleanComps_head hL h0
  have hdec : decide ((joinSlash L).head? = some '/') = false :=
    decide_eq_false hhead
  obtain ⟨ds, gs, rfl, hd, hg⟩ := hL
  unfold goClean
  rw [if_neg hne,
    splitSlash_joinSlash (fun c hc => (hfacts c hc).2) h0, hdec,
    if_neg (by simp)]
  rw [List.foldl_append, foldl_dotdots hd (by simp), foldl_goods hg]
  rw [List.append_nil, ← List.reverse_append, List.reverse_reverse]
  rw [if_neg (by simpa using h0)]

/-- `Clean` drops one trailing slash after a clean relative path. -/
theorem goClean_joinSlash_slash {L : List (List Char)} (hL : CleanComps L)
    (h0 : L ≠ []) : goClean (joinSlash L ++ ['/']) = joinSlash L := by
  have hfacts := comps_facts hL
  have hne : joinSlash L ≠ [] :=
    joinSlash_ne_nil (fun c hc => (hfacts c hc).1) h0
  have hhead := cleanComps_head hL h0
  have hsplit : splitSlash (joinSlash L ++ ['/']) = L ++ [[]] := by
    rw [splitSlash_concat_slash,
      splitSlash_joinSlash (fun c hc => (hfacts c hc).2) h0]
  have hdec : decide ((joinSlash L ++ ['/']).head? = some '/') = false := by
    apply decide_eq_false
    cases hj : joinSlash L with
    | nil => exact absurd hj hne
    | cons a r =>
      rw [hj] at hhead
      simpa using hhead
  obtain ⟨ds, gs, rfl, hd, hg⟩ := hL
  unfold goClean
  rw [if_neg (by simp), hsplit, hdec, if_neg (by simp)]
  rw [List.append_assoc, List.foldl_append, foldl_dotdots hd (by simp),
    List.foldl_append, foldl_goods hg, List.append_nil]
  rw [show ([[]] : List (List Char)).foldl (cleanStep false)
      (gs.reverse ++ ds.reverse) = gs.reverse ++ ds.reverse from rfl]
  rw [← List.reverse_append, List.reverse_reverse]
  rw [if_neg (by simpa using h0)]

/-- `Clean` on a rooted path whose components are all good, with a trailing
slash. -/
theorem goClean_rooted_slash {M : List (List Char)}
    (hM : ∀ c ∈ M, isGoodSeg c = true) :
    goClean ('/' :: (joinSlash M ++ ['/'])) = '/' :: joinSlash M := by
  cases hM0 : M with
  | nil => decide
  | cons m M' =>
    rw [← hM0]
    have hMcc : CleanComps M := ⟨[], M, by simp, by simp, hM⟩
    have hfacts := comps_facts hMcc
    have hsplit : splitSlash ('/' :: (joinSlash M ++ ['/'])) =
        [] :: (M ++ [[]]) := by
      rw [show splitSlash ('/' :: (joinSlash M ++ ['/'])) =
          [] :: splitSlash (joinSlash M ++ ['/']) by simp [splitSlash]]
      rw [splitSlash_concat_slash,
        splitSlash_joinSlash (fun c hc => (hfacts c hc).2) (by rw [hM0]; simp)]
    have hdec :
        decide (('/' :: (joinSlash M ++ ['/'])).head? = some '/') = true := by
      simp
    unfold goClean
    rw [if_neg (by simp), hsplit, hdec, if_pos rfl]
    rw [show (([] :: (M ++ [[]])) : List (List Char)).foldl
        (cleanStep true) [] = (M ++ [[]]).foldl (cleanStep true) [] from rfl]
    rw [List.foldl_append, foldl_goods hM, List.append_nil]
    rw [show ([[]] : List (List Char)).foldl (cleanStep true) M.reverse
      = M.reverse from rfl]
    rw [List.reverse_reverse]

/-! ## Lemmas: `cleanPath` shape and idempotence -/

theorem mapSlash_of_no_backslash {q : List Char} (h : '\\' ∉ q) :
    q.map (fun c => if c = '\\' then '/' else c) = q := by
  induction q with
  | nil => rfl
  | cons a r ih =>
    simp only [List.mem_cons, not_or] at h
    rw [List.map_cons, if_neg (fun hc : a = '\\' => h.1 hc.symm), ih h.2]

theorem cleanStep_skip {r : Bool} {st : List (List Char)} {c : List Char}
    (h : c = [] ∨ c = ['.']) : cleanStep r st c = st := by
  unfold cleanStep; rw [if_pos h]

theorem cleanStep_dd_nil {r : Bool} :
    cleanStep r [] dotdot = if r then [] else [dotdot] := by
  unfold cleanStep
  rw [if_neg (by simp [dotdot]), if_pos rfl]

theorem cleanStep_dd_cons {r : Bool} {t : List Char}
    {st' : List (List Char)} :
    cleanStep r (t :: st') dotdot =
      if t = dotdot then dotdot :: t :: st' else st' := by
  unfold cleanStep
  rw [if_neg (by simp [dotdot]), if_pos rfl]

theorem mem_cleanStep {r : Bool} {st : List (List Char)} {c x : List Char}
    (hx : x ∈ cleanStep r st c) : x = c ∨ x = dotdot ∨ x ∈ st := by
  by_cases h1 : c = [] ∨ c = ['.']
  · rw [cleanStep_skip h1] at hx
    exact Or.inr (Or.inr hx)
  · by_cases h2 : c = dotdot
    · subst h2
      cases st with
      | nil =>
        rw [cleanStep_dd_nil] at hx
        cases r with
        | true => simp at hx
        | false =>
          simp only [if_neg (by simp : ¬(false = true)),
            List.mem_singleton] at hx
          exact Or.inr (Or.inl hx)
      | cons t st' =>
        rw [cleanStep_dd_cons] at hx
        by_cases h3 : t = dotdot
        · rw [if_pos h3] at hx
          rcases List.mem_cons.mp hx with rfl | hx
          · exact Or.inr (Or.inl rfl)
          · exact Or.inr (Or.inr hx)
        · rw [if_neg h3] at hx
          exact Or.inr (Or.inr (List.mem_cons_of_mem t hx))
    · rw [show cleanStep r st c = c :: st by
        unfold cleanStep; rw [if_neg h1, if_neg h2]] at hx
      rcases List.mem_cons.mp hx with rfl | hx
      · exact Or.inl rfl
      · exact Or.inr (Or.inr hx)

theorem foldl_stack_pred {P : List Char → Prop} (hPd : P dotdot) {r : Bool}
    {l : List (List Char)} :
    ∀ {st : List (List Char)}, (∀ c ∈ l, P c) → (∀ c ∈ st, P c) →
    ∀ c ∈ l.foldl (cleanStep r) st, P c := by
  induction l with
  | nil => intro st _ hst c hc; exact hst c hc
  | cons a l' ih =>
    intro st hl hst c hc
    rw [List.foldl_cons] at hc
    refine ih (fun x hx => hl x (List.mem_cons_of_mem a hx)) ?_ c hc
    intro x hx
    rcases mem_cleanStep hx with rfl | rfl | hx
    · exact hl _ (List.mem_cons_self _ _)
    · exact hPd
    · exact hst x hx

theorem no_backslash_goClean {p : List Char} (h : '\\' ∉ p) :
    '\\' ∉ goClean p := by
  by_cases hp : p = []
  · subst hp; decide
  · have hstack : ∀ c ∈ ((splitSlash p).foldl
        (cleanStep (decide (p.head? = some '/'))) []).reverse, '\\' ∉ c := by
      intro c hc
      refine foldl_stack_pred (P := fun c => '\\' ∉ c) (by decide)
        ?_ (by simp) c (List.mem_reverse.mp hc)
      intro x hx hmem
      exact h (mem_of_mem_splitSlash hx hmem)
    have hjoin : '\\' ∉ joinSlash (((splitSlash p).foldl
        (cleanStep (decide (p.head? = some '/'))) []).reverse) := by
      intro hmem
      rcases mem_joinSlash hmem with h1 | ⟨c, hc, hmc⟩
      · exact absurd h1 (by decide)
      · exact hstack c hc hmc
    unfold goClean
    rw [if_neg hp]
    by_cases hroot : (decide (p.head? = some '/')) = true
    · rw [if_pos hroot]
      intro hmem
      rcases List.mem_cons.mp hmem with h1 | h1
      · exact absurd h1 (by decide)
      · exact hjoin h1
    · rw [if_neg hroot]
      by_cases hemp : ((splitSlash p).foldl
          (cleanStep (decide (p.head? = some '/'))) []).reverse = []
      · rw [if_pos hemp]; decide
      · rw [if_neg hemp]; exact hjoin

theorem trimPrefix_noop {x : List Char} (h : x.head? ≠ some '/') :
    trimPrefixSlash x = x := by
  unfold trimPrefixSlash; rw [if_neg h]

theorem trimSuffix_noop {x : List Char} (h : x.getLast? ≠ some '/') :
    trimSuffixSlash x = x := by
  unfold trimSuffixSlash; rw [if_neg h]

theorem trimPrefixSlash_cons {x : List Char} :
    trimPrefixSlash ('/' :: x) = x := by
  simp [trimPrefixSlash]

theorem mem_trimPrefixSlash {x : List Char} {ch : Char}
    (h : ch ∈ trimPrefixSlash x) : ch ∈ x := by
  unfold trimPrefixSlash at h
  by_cases h1 : x.head? = some '/'
  · rw [if_pos h1] at h
    exact List.mem_of_mem_tail h
  · rwa [if_neg h1] at h

theorem mem_trimSuffixSlash {x : List Char} {ch : Char}
    (h : ch ∈ trimSuffixSlash x) : ch ∈ x := by
  unfold trimSuffixSlash at h
  by_cases h1 : x.getLast? = some '/'
  · rw [if_pos h1] at h
    exact (List.dropLast_sublist x).subset h
  · rwa [if_neg h1] at h

/-- Shape of `cleanPath` outputs on backslash-free inputs: empty, `.`, or a
non-empty clean relative path, always backslash-free. -/
theorem cleanPath_form (p : List Char) (hb : '\\' ∉ p) :
    '\\' ∉ cleanPath p ∧
    (cleanPath p = [] ∨ cleanPath p = ['.'] ∨
      (∃ L, CleanComps L ∧ L ≠ [] ∧ cleanPath p = joinSlash L)) := by
  by_cases hp : p = []
  · subst hp; exact ⟨by decide, Or.inl rfl⟩
  have hnb : '\\' ∉ goClean p := no_backslash_goClean hb
  have hq : cleanPath p = trimSuffixSlash (trimPrefixSlash (goClean p)) := by
    unfold cleanPath
    rw [if_neg hp]
    exact mapSlash_of_no_backslash
      (fun hm => hnb (mem_trimPrefixSlash (mem_trimSuffixSlash hm)))
  have hqb : '\\' ∉ cleanPath p := by
    rw [hq]
    exact fun hm => hnb (mem_trimPrefixSlash (mem_trimSuffixSlash hm))
  refine ⟨hqb, ?_⟩
  rcases goClean_form p hp with h | ⟨L, hLg, h⟩ | ⟨L, hLc, hL0, h⟩
  · right; left
    rw [hq, h]
    rfl
  · rw [hq, h, trimPrefixSlash_cons]
    cases hL0 : L with
    | nil => left; rfl
    | cons c L' =>
      rw [← hL0]
      have hLc : CleanComps L := ⟨[], L, by simp, by simp, hLg⟩
      have hfacts := comps_facts hLc
      rw [trimSuffix_noop (joinSlash_getLast hfacts (by rw [hL0]; simp))]
      exact Or.inr (Or.inr ⟨L, hLc, by rw [hL0]; simp, rfl⟩)
  · rw [hq, h]
    have hfacts := comps_facts hLc
    rw [trimPrefix_noop (cleanComps_head hLc hL0),
      trimSuffix_noop (joinSlash_getLast hfacts hL0)]
    exact Or.inr (Or.inr ⟨L, hLc, hL0, rfl⟩)

/-- On clean relative paths (backslash-free), `cleanPath` is the identity. -/
theorem cleanPath_fixed {L : List (List Char)} (hLc : CleanComps L)
    (hL0 : L ≠ []) (hb : '\\' ∉ joinSlash L) :
    cleanPath (joinSlash L) = joinSlash L := by
  have hfacts := comps_facts hLc
  have hne := joinSlash_ne_nil (fun c hc => (hfacts c hc).1) hL0
  have hq : cleanPath (joinSlash L) =
      (trimSuffixSlash (trimPrefixSlash (goClean (joinSlash L)))).map
        (fun c => if c = '\\' then '/' else c) := by
    unfold cleanPath
    rw [if_neg hne]
  rw [hq, goClean_joinSlash hLc hL0,
    trimPrefix_noop (cleanComps_head hLc hL0),
    trimSuffix_noop (joinSlash_getLast hfacts hL0)]
  exact mapSlash_of_no_backslash hb

/-! ## Claim C2: idempotence of path normalization -/

/-- C2 counterexample: normalization is NOT idempotent on every input.  For
the one-character input `"\\"`, `cleanPath` returns `"/"` (the backslash is
replaced after the slash-trimming), and a second application returns `""`. -/
theorem C2_counterexample_backslash :
    cleanPath (cleanPath (cs "\\")) ≠ cleanPath (cs "\\") := by decide

/-- C2 (amended): path normalization is idempotent on every input that
contains no backslash; `normalize(normalize(p)) = normalize(p)` for all
backslash-free `p`, including strings with leading/trailing separators. -/
theorem C2_cleanPath_idempotent (p : List Char) (hb : '\\' ∉ p) :
    cleanPath (cleanPath p) = cleanPath p := by
  obtain ⟨hqb, hform⟩ := cleanPath_form p hb
  rcases hform with h | h | ⟨L, hLc, hL0, h⟩
  · rw [h]; rfl
  · rw [h]; decide
  · rw [h]
    exact cleanPath_fixed hLc hL0 (h ▸ hqb)

/-- C2 witness: the amended idempotence theorem applied at a concrete dirty
path. -/
theorem C2_witness :
    '\\' ∉ cs "/a//b/./c/../d/" ∧
    cleanPath (cleanPath (cs "/a//b/./c/../d/")) =
      cleanPath (cs "/a//b/./c/../d/") :=
  ⟨by decide, C2_cleanPath_idempotent (cs "/a//b/./c/../d/") (by decide)⟩

/-! ## Claim C9: session store round trip -/

/-- C9: issuing a session stores exactly that username/role under the token;
revoking a token makes lookup return absent; lookup of an unknown token
returns absent; revoking an unknown token is a no-op and revoke is
idempotent. -/
theorem C9_session_roundtrip :
    (∀ (st : SessionStore) (t u role : String) (now : Nat),
      storeLookup (createSession st t u role now) t = some ⟨u, role, now⟩) ∧
    (∀ (st : SessionStore) (t : String),
      storeLookup (storeDelete st t) t = none) ∧
    (∀ (st : SessionStore) (t : String),
      (∀ e ∈ st, e.1 ≠ t) → storeLookup st t = none) ∧
    (∀ (st : SessionStore) (t : String),
      (∀ e ∈ st, e.1 ≠ t) → storeDelete st t = st) ∧
    (∀ (st : SessionStore) (t : String),
      storeDelete (storeDelete st t) t = storeDelete st t) := by
  refine ⟨?_, ?_, ?_, ?_, ?_⟩
  · intro st t u role now
    simp [createSession, storeInsert, storeLookup]
  · intro st t
    simp only [storeDelete, storeLookup, Option.map_eq_none',
      List.find?_eq_none, List.mem_filter]
    intro e he
    simp only [decide_eq_true_eq] at he ⊢
    exact he.2
  · intro st t h
    simp only [storeLookup, Option.map_eq_none', List.find?_eq_none]
    intro e he
    simp only [decide_eq_true_eq]
    exact h e he
  · intro st t h
    simp only [storeDelete]
    rw [List.filter_eq_self]
    intro e he
    simpa using h e he
  · intro st t
    simp only [storeDelete]
    rw [List.filter_eq_self]
    intro e he
    exact (List.mem_filter.mp he).2

/-- C9 witness: the round trip at a concrete store. -/
theorem C9_witness :
    storeLookup (createSession [] "tok1" "alice" "editor" 0) "tok1" =
      some ⟨"alice", "editor", 0⟩ ∧
    storeLookup (storeDelete (createSession [] "tok1" "alice" "editor" 0)
      "tok1") "tok1" = none ∧
    storeLookup ([("tok1", ⟨"alice", "editor", 0⟩)] : SessionStore) "zz" =
      none ∧
    storeDelete ([("tok1", ⟨"alice", "editor", 0⟩)] : SessionStore) "zz" =
      [("tok1", ⟨"alice", "editor", 0⟩)] ∧
    storeDelete (storeDelete ([("tok1", ⟨"alice", "editor", 0⟩)] :
      SessionStore) "tok1") "tok1" =
      storeDelete ([("tok1", ⟨"alice", "editor", 0⟩)] : SessionStore)
        "tok1" :=
  ⟨C9_session_roundtrip.1 [] "tok1" "alice" "editor" 0,
   C9_session_roundtrip.2.1 (createSession [] "tok1" "alice" "editor" 0)
     "tok1",
   C9_session_roundtrip.2.2.1 _ "zz" (by decide),
   C9_session_roundtrip.2.2.2.1 _ "zz" (by decide),
   C9_session_roundtrip.2.2.2.2 _ "tok1"⟩

/-! ## Claim C10: the authorization gate on non-private wikis -/

/-- C10: when the wiki is not private, `RequireAuth` admits every request
whatever the session store and cookie hold; when it is private, it admits a
request exactly when the cookie maps to a live session. -/
theorem C10_requireAuth_public :
    (∀ (st : SessionStore) (cookie : Option String),
      requireAuth false st cookie = true) ∧
    (∀ (st : SessionStore) (cookie : Option String),
      requireAuth true st cookie = (getSessionTok st cookie).isSome) :=
  ⟨fun _ _ => rfl, fun _ _ => rfl⟩

/-! ## Claim C1: the authentication gate of the relocation endpoint -/

/-- C1 (code-bug evidence): the handler's gate only tests that a session
exists.  With a valid session of role "viewer" a relocation request is not
rejected with 401 — it proceeds and performs the move, returning 200 —
whereas with no session the handler does return 401 leaving the filesystem
untouched. -/
theorem C1_viewer_session_not_rejected :
    (moveDocumentHandler ⟨cs "data", cs "documents", true⟩
      [⟨cs "data/documents/alpha/document.md", false⟩]
      [("tok", ⟨"carol", "viewer", 0⟩)] "POST" (some "tok")
      (some ⟨cs "alpha", cs "", cs "beta"⟩)).status = 200 ∧
    (moveDocumentHandler ⟨cs "data", cs "documents", true⟩
      [⟨cs "data/documents/alpha/document.md", false⟩]
      [("tok", ⟨"carol", "viewer", 0⟩)] "POST" (some "tok")
      (some ⟨cs "alpha", cs "", cs "beta"⟩)).fs =
      [⟨cs "data/documents/beta/document.md", false⟩] ∧
    (moveDocumentHandler ⟨cs "data", cs "documents", true⟩
      [⟨cs "data/documents/alpha/document.md", false⟩]
      [("tok", ⟨"carol", "viewer", 0⟩)] "POST" none
      (some ⟨cs "alpha", cs "", cs "beta"⟩)).status = 401 ∧
    (moveDocumentHandler ⟨cs "data", cs "documents", true⟩
      [⟨cs "data/documents/alpha/document.md", false⟩]
      [("tok", ⟨"carol", "viewer", 0⟩)] "POST" none
      (some ⟨cs "alpha", cs "", cs "beta"⟩)).fs =
      [⟨cs "data/documents/alpha/document.md", false⟩] := by
  refine ⟨?_, ?_, ?_, ?_⟩ <;> decide

/-! ## Claim C5: homepage immutability -/

/-- C5: any authenticated POST whose source path is empty (raw or after
cleaning), folds case-insensitively to `pages/home`, or ends in the
`/homepage` segment, and any request whose cleaned target folds to
`pages/home`, is rejected with 400 and the filesystem is untouched. -/
theorem C5_homepage_immutable (cfg : Config) (fs : FS) (store : SessionStore)
    (cookie : Option String) (s : Session) (req : MoveRequest)
    (hs : getSessionTok store cookie = some s)
    (hguard : req.sourcePath = [] ∨ cleanPath req.sourcePath = [] ∨
      eqFold (cleanPath req.sourcePath) (cs "pages/home") = true ∨
      List.isSuffixOf (cs "/homepage") (cleanPath req.sourcePath) = true ∨
      eqFold (cleanPath req.targetPath) (cs "pages/home") = true) :
    (moveDocumentHandler cfg fs store "POST" cookie (some req)).status = 400 ∧
    (moveDocumentHandler cfg fs store "POST" cookie (some req)).fs = fs := by
  simp only [moveDocumentHandler, hs]
  rw [if_neg (by simp : ¬("POST" ≠ "POST"))]
  by_cases h0 : req.sourcePath = []
  · rw [if_pos h0]
    exact ⟨rfl, rfl⟩
  rw [if_neg h0]
  by_cases h1 : (cleanPath req.targetPath = [] && req.newSlug = []) = true
  · rw [if_pos h1]
    exact ⟨rfl, rfl⟩
  rw [if_neg h1]
  by_cases h2 : (cleanPath req.sourcePath = [] ||
      cleanPath req.sourcePath = ['/'] ||
      cleanPath req.sourcePath = cs "pages/home" ||
      eqFold (cleanPath req.sourcePath) (cs "pages/home") ||
      List.isSuffixOf (cs "/homepage") (cleanPath req.sourcePath)) = true
  · rw [if_pos h2]
    exact ⟨rfl, rfl⟩
  rw [if_neg h2]
  have htgt : eqFold (cleanPath req.targetPath) (cs "pages/home") = true := by
    rcases hguard with h | h | h | h | h
    · exact absurd h h0
    · exact absurd (by simp [h]) h2
    · exact absurd (by simp [h]) h2
    · exact absurd (by simp [h]) h2
    · exact h
  rw [if_pos (by simp [htgt])]
  exact ⟨rfl, rfl⟩

/-- C5 witness: moving `pages/home` to `archive` is rejected with 400 and
does not touch the filesystem. -/
theorem C5_witness :
    (moveDocumentHandler ⟨cs "data", cs "documents", true⟩ []
      [("t", ⟨"bob", "editor", 0⟩)] "POST" (some "t")
      (some ⟨cs "pages/home", cs "archive", []⟩)).status = 400 ∧
    (moveDocumentHandler ⟨cs "data", cs "documents", true⟩ []
      [("t", ⟨"bob", "editor", 0⟩)] "POST" (some "t")
      (some ⟨cs "pages/home", cs "archive", []⟩)).fs = [] :=
  C5_homepage_immutable ⟨cs "data", cs "documents", true⟩ []
    [("t", ⟨"bob", "editor", 0⟩)] (some "t") ⟨"bob", "editor", 0⟩
    ⟨cs "pages/home", cs "archive", []⟩ (by decide)
    (Or.inr (Or.inr (Or.inl (by decide))))

/-! ## Claim C6: move-to-root classification -/

/-- C6 counterexample: a request with nested source `a/b`, empty target and
empty slug is rejected as "nothing to do" with 400 — it is not classified
as a move-to-root and does not proceed toward execution. -/
theorem C6_counterexample :
    (moveDocumentHandler ⟨cs "data", cs "documents", true⟩
      [⟨cs "data/documents/a/b/document.md", false⟩]
      [("tok", ⟨"ed", "editor", 0⟩)] "POST" (some "tok")
      (some ⟨cs "a/b", cs "", cs ""⟩)).status = 400 ∧
    (moveDocumentHandler ⟨cs "data", cs "documents", true⟩
      [⟨cs "data/documents/a/b/document.md", false⟩]
      [("tok", ⟨"ed", "editor", 0⟩)] "POST" (some "tok")
      (some ⟨cs "a/b", cs "", cs ""⟩)).message =
      "Either target path or new slug must be provided" := by
  exact ⟨by decide, by decide⟩

/-- C6 (amended): a request with empty target path AND empty new slug is
always rejected with 400 ("nothing to do") before any classification, even
when the source's parent is not root; the move-to-root classification
(isMove true) holds for an empty target path with a non-root parent, and so
takes effect only for requests that also carry a new slug. -/
theorem C6_move_to_root_amended :
    (∀ (cfg : Config) (fs : FS) (store : SessionStore)
      (cookie : Option String) (s : Session) (req : MoveRequest),
      getSessionTok store cookie = some s → req.sourcePath ≠ [] →
      cleanPath req.targetPath = [] → req.newSlug = [] →
      (moveDocumentHandler cfg fs store "POST" cookie
        (some req)).status = 400 ∧
      (moveDocumentHandler cfg fs store "POST" cookie (some req)).message =
        "Either target path or new slug must be provided" ∧
      (moveDocumentHandler cfg fs store "POST" cookie (some req)).fs = fs) ∧
    (∀ srcP slug : List Char, dirOf srcP ≠ ['.'] →
      (classify srcP [] slug).2.2 = true) := by
  constructor
  · intro cfg fs store cookie s req hs h0 htgt hslug
    simp only [moveDocumentHandler, hs]
    rw [if_neg (by simp : ¬("POST" ≠ "POST")), if_neg h0,
      if_pos (by simp [htgt, hslug])]
    exact ⟨rfl, rfl, rfl⟩
  · intro srcP slug h
    simp [classify, h]

/-- C6 witness: the amended statement at the counterexample's inputs, and
the classification flag for a nested source. -/
theorem C6_witness :
    ((moveDocumentHandler ⟨cs "data", cs "documents", true⟩
      [⟨cs "data/documents/a/b/document.md", false⟩]
      [("tok", ⟨"ed", "editor", 0⟩)] "POST" (some "tok")
      (some ⟨cs "a/b", cs "", cs ""⟩)).status = 400 ∧
    (moveDocumentHandler ⟨cs "data", cs "documents", true⟩
      [⟨cs "data/documents/a/b/document.md", false⟩]
      [("tok", ⟨"ed", "editor", 0⟩)] "POST" (some "tok")
      (some ⟨cs "a/b", cs "", cs ""⟩)).message =
      "Either target path or new slug must be provided" ∧
    (moveDocumentHandler ⟨cs "data", cs "documents", true⟩
      [⟨cs "data/documents/a/b/document.md", false⟩]
      [("tok", ⟨"ed", "editor", 0⟩)] "POST" (some "tok")
      (some ⟨cs "a/b", cs "", cs ""⟩)).fs =
      [⟨cs "data/documents/a/b/document.md", false⟩]) ∧
    (classify (cs "a/b") [] (cs "c")).2.2 = true :=
  ⟨C6_move_to_root_amended.1 ⟨cs "data", cs "documents", true⟩
      [⟨cs "data/documents/a/b/document.md", false⟩]
      [("tok", ⟨"ed", "editor", 0⟩)] (some "tok") ⟨"ed", "editor", 0⟩
      ⟨cs "a/b", cs "", cs ""⟩ (by decide) (by decide) (by decide)
      (by decide),
   C6_move_to_root_amended.2 (cs "a/b") (cs "c") (by decide)⟩

/-! ## Claim C8: best-effort secondary mirroring -/

theorem fsMkdirAll_mem {fs fs' : FS} {p : List Char} {e : FsEntry}
    (h : fsMkdirAll fs p = some fs') (he : e ∈ fs) : e ∈ fs' := by
  unfold fsMkdirAll at h
  by_cases h1 : fsExistsP fs p = true
  · rw [if_pos h1] at h
    by_cases h2 : fsIsDirP fs p = true
    · rw [if_pos h2] at h
      cases h
      exact he
    · rw [if_neg h2] at h
      cases h
  · rw [if_neg h1] at h
    cases h
    exact List.mem_cons_of_mem _ he

theorem fsRename_mem {fs fs' : FS} {src dst : List Char} {e : FsEntry}
    (h : fsRename fs src dst = some fs') (he : e ∈ fs)
    (hpref : isPrefPath src e.path = false) (hdst : e.path ≠ dst) :
    e ∈ fs' := by
  unfold fsRename at h
  by_cases h1 : (!fsExistsP fs src) = true
  · rw [if_pos h1] at h
    cases h
  · rw [if_neg h1] at h
    by_cases h2 : fsNonemptyP fs dst = true
    · rw [if_pos h2] at h
      cases h
    · rw [if_neg h2] at h
      cases h
      refine List.mem_map.mpr ⟨e, List.mem_filter.mpr ⟨he, by simpa⟩, ?_⟩
      rw [if_neg (by simp [hpref])]

/-- C8: each secondary store is mirrored best-effort and independently:
an absent secondary source is skipped silently (state unchanged, no
warning); a failure to create the secondary target's parent leaves the
state unchanged and is recorded only as a warning; a failed secondary
rename is likewise only a warning; the post-primary stage always reports
200 success whatever the mirrors did; and no mirror ever moves or deletes
an entry outside its own secondary source tree and target, so the primary
move is never rolled back. -/
theorem C8_secondary_best_effort :
    (∀ (fs : FS) (src dst : List Char), fsExistsP fs src = false →
      mirrorSecondary fs src dst = (fs, false)) ∧
    (∀ (fs : FS) (src dst : List Char), fsExistsP fs src = true →
      fsMkdirAll fs (dirOf dst) = none →
      mirrorSecondary fs src dst = (fs, true)) ∧
    (∀ (fs fsa : FS) (src dst : List Char), fsExistsP fs src = true →
      fsMkdirAll fs (dirOf dst) = some fsa →
      fsRename fsa src dst = none →
      mirrorSecondary fs src dst = (fsa, true)) ∧
    (∀ (cfg : Config) (fs2 : FS) (srcP newPath : List Char),
      (afterPrimary cfg fs2 srcP newPath).status = 200 ∧
      (afterPrimary cfg fs2 srcP newPath).success = true ∧
      (afterPrimary cfg fs2 srcP newPath).message =
        "Document moved successfully") ∧
    (∀ (fs : FS) (src dst : List Char) (e : FsEntry), e ∈ fs →
      isPrefPath src e.path = false → e.path ≠ dst →
      e ∈ (mirrorSecondary fs src dst).1) := by
  refine ⟨?_, ?_, ?_, ?_, ?_⟩
  · intro fs src dst h
    simp only [mirrorSecondary, h]
    rfl
  · intro fs src dst hex hmk
    simp only [mirrorSecondary, hex, hmk]
    rfl
  · intro fs fsa src dst hex hmk hrn
    simp only [mirrorSecondary, hex, hmk, hrn]
    rfl
  · intro cfg fs2 srcP newPath
    exact ⟨rfl, rfl, rfl⟩
  · intro fs src dst e he hpref hdst
    by_cases hex : fsExistsP fs src = true
    · cases hmk : fsMkdirAll fs (dirOf dst) with
      | none =>
        simp only [mirrorSecondary, hex, hmk]
        exact he
      | some fsa =>
        have hea : e ∈ fsa := fsMkdirAll_mem hmk he
        cases hrn : fsRename fsa src dst with
        | none =>
          simp only [mirrorSecondary, hex, hmk, hrn]
          exact hea
        | some fsb =>
          simp only [mirrorSecondary, hex, hmk, hrn]
          exact fsRename_mem hrn hea hpref hdst
    · simp only [mirrorSecondary,
        show fsExistsP fs src = false from by
          cases hh : fsExistsP fs src
          · rfl
          · exact absurd hh hex]
      exact he

/-- C8 witness: the five parts at concrete filesystems — absent source,
file blocking the parent directory, non-empty rename target, a concrete
post-primary run, and a preserved unrelated entry. -/
theorem C8_witness :
    mirrorSecondary [] (cs "x") (cs "y") = ([], false) ∧
    mirrorSecondary [⟨cs "a", false⟩, ⟨cs "x", false⟩] (cs "a")
      (cs "x/b") = ([⟨cs "a", false⟩, ⟨cs "x", false⟩], true) ∧
    mirrorSecondary [⟨cs "a", false⟩, ⟨cs "y/b/c", false⟩] (cs "a")
      (cs "y/b") = ([⟨cs "a", false⟩, ⟨cs "y/b/c", false⟩], true) ∧
    ((afterPrimary ⟨cs "data", cs "documents", true⟩
        [⟨cs "data/documents/beta/document.md", false⟩] (cs "alpha")
        (cs "beta")).status = 200 ∧
      (afterPrimary ⟨cs "data", cs "documents", true⟩
        [⟨cs "data/documents/beta/document.md", false⟩] (cs "alpha")
        (cs "beta")).success = true ∧
      (afterPrimary ⟨cs "data", cs "documents", true⟩
        [⟨cs "data/documents/beta/document.md", false⟩] (cs "alpha")
        (cs "beta")).message = "Document moved successfully") ∧
    (⟨cs "keep", false⟩ : FsEntry) ∈
      (mirrorSecondary [⟨cs "keep", false⟩] (cs "s") (cs "d")).1 :=
  ⟨C8_secondary_best_effort.1 [] (cs "x") (cs "y") (by decide),
   C8_secondary_best_effort.2.1 [⟨cs "a", false⟩, ⟨cs "x", false⟩]
     (cs "a") (cs "x/b") (by decide) (by decide),
   C8_secondary_best_effort.2.2.1 [⟨cs "a", false⟩, ⟨cs "y/b/c", false⟩]
     [⟨cs "a", false⟩, ⟨cs "y/b/c", false⟩] (cs "a") (cs "y/b")
     (by decide) (by decide) (by decide),
   C8_secondary_best_effort.2.2.2.1 ⟨cs "data", cs "documents", true⟩
     [⟨cs "data/documents/beta/document.md", false⟩] (cs "alpha")
     (cs "beta"),
   C8_secondary_best_effort.2.2.2.2 [⟨cs "keep", false⟩] (cs "s")
     (cs "d") ⟨cs "keep", false⟩ (by decide) (by decide) (by decide)⟩

/-! ## Claim C3: conflict detection and the case-only-rename exception -/

theorem isPrefPath_iff {p q : List Char} :
    isPrefPath p q = true ↔ p = q ∨ (p ++ ['/']) <+: q := by
  simp [isPrefPath, List.isPrefixOf_iff_prefix, Bool.or_eq_true, beq_iff_eq]

theorem isStrictPref_iff {p q : List Char} :
    isStrictPref p q = true ↔ (p ++ ['/']) <+: q := by
  simp [isStrictPref, List.isPrefixOf_iff_prefix]

theorem isStrictPref_of_append {a b q : List Char}
    (h : isPrefPath (a ++ '/' :: b) q = true) : isStrictPref a q = true := by
  rw [isStrictPref_iff]
  rcases isPrefPath_iff.mp h with rfl | hpre
  · exact ⟨b, by simp⟩
  · refine List.IsPrefix.trans ⟨b ++ ['/'], by simp⟩ hpre

theorem isPrefPath_trans {a b c : List Char} (h1 : isPrefPath a b = true)
    (h2 : isPrefPath b c = true) : isPrefPath a c = true := by
  rw [isPrefPath_iff] at h1 h2 ⊢
  rcases h1 with rfl | h1
  · exact h2
  · rcases h2 with rfl | h2
    · exact Or.inr h1
    · exact Or.inr (h1.trans ((List.prefix_append b ['/']).trans h2))

theorem fsExistsP_elim {fs : FS} {p : List Char} (h : fsExistsP fs p = true)
    (h1 : p ≠ ['.']) (h2 : p ≠ ['/']) :
    ∃ e ∈ fs, isPrefPath p e.path = true := by
  unfold fsExistsP at h
  by_cases h0 : p = []
  · rw [if_pos h0] at h; cases h
  · rw [if_neg h0] at h
    simp only [Bool.or_eq_true, decide_eq_true_eq] at h
    rcases h with (h | h) | h
    · exact absurd h h1
    · exact absurd h h2
    · exact List.any_eq_true.mp h

theorem fsIsDirP_of_strict {fs : FS} {p : List Char} {e : FsEntry}
    (he : e ∈ fs) (h : isStrictPref p e.path = true) :
    fsIsDirP fs p = true := by
  unfold fsIsDirP
  simp only [Bool.or_eq_true, List.any_eq_true]
  exact Or.inr ⟨e, he, Or.inr h⟩

theorem fsNonemptyP_of_strict {fs : FS} {p : List Char} {e : FsEntry}
    (he : e ∈ fs) (h : isStrictPref p e.path = true) :
    fsNonemptyP fs p = true := by
  unfold fsNonemptyP
  rw [List.any_eq_true]
  exact ⟨e, he, h⟩

/-- C3 counterexample: with a document already present at the resolved
target, a case-only rename into a DIFFERENT parent (`Projects/test` →
target `Other`, newSlug `Test`, with `Other/Test/document.md` existing) is
still rejected with 409, by the non-empty-target-directory check — the
relocation does not proceed as the claim states. -/
theorem C3_counterexample :
    (moveDocumentHandler ⟨cs "data", cs "documents", true⟩
      [⟨cs "data/documents/Projects/test/document.md", false⟩,
       ⟨cs "data/documents/Other/Test/document.md", false⟩]
      [("tok", ⟨"ed", "editor", 0⟩)] "POST" (some "tok")
      (some ⟨cs "Projects/test", cs "Other", cs "Test"⟩)).status = 409 ∧
    (moveDocumentHandler ⟨cs "data", cs "documents", true⟩
      [⟨cs "data/documents/Projects/test/document.md", false⟩,
       ⟨cs "data/documents/Other/Test/document.md", false⟩]
      [("tok", ⟨"ed", "editor", 0⟩)] "POST" (some "tok")
      (some ⟨cs "Projects/test", cs "Other", cs "Test"⟩)).message =
      "Target directory already exists and is not empty" ∧
    (moveDocumentHandler ⟨cs "data", cs "documents", true⟩
      [⟨cs "data/documents/Projects/test/document.md", false⟩,
       ⟨cs "data/documents/Other/Test/document.md", false⟩]
      [("tok", ⟨"ed", "editor", 0⟩)] "POST" (some "tok")
      (some ⟨cs "Projects/test", cs "Other", cs "Test"⟩)).fs =
      [⟨cs "data/documents/Projects/test/document.md", false⟩,
       ⟨cs "data/documents/Other/Test/document.md", false⟩] := by
  refine ⟨?_, ?_, ?_⟩ <;> decide

/-- C3 (amended): when a document exists at the resolved target, a
same-parent (case-only) rename is rejected 409 by the document-exists
branch; when the parents differ and the collision is case-only, the
document-exists branch is indeed skipped, but the request is nevertheless
rejected 409 by the non-empty-target-directory check, so the relocation
never proceeds. -/
theorem C3_conflict_amended :
    (∀ (fs : FS) (fullS fullT srcP slug : List Char),
      fullT ≠ fullS →
      fsExistsP fs (goJoin2 fullT (cs "document.md")) = true →
      toLowerStr (baseOf srcP) = toLowerStr slug →
      dirOf fullS = dirOf fullT →
      conflictCheck fs fullS fullT srcP slug =
        some "A document already exists at the target location") ∧
    (∀ (fs : FS) (fullS fullT srcP slug : List Char),
      fullT ≠ fullS →
      goJoin2 fullT (cs "document.md") = fullT ++ '/' :: cs "document.md" →
      fsExistsP fs (goJoin2 fullT (cs "document.md")) = true →
      toLowerStr (baseOf srcP) = toLowerStr slug →
      dirOf fullS ≠ dirOf fullT →
      conflictCheck fs fullS fullT srcP slug =
        some "Target directory already exists and is not empty") := by
  constructor
  · intro fs fullS fullT srcP slug hne hex hcase hdir
    simp only [conflictCheck]
    rw [if_pos hne, if_pos (by simp [hex, hdir])]
  · intro fs fullS fullT srcP slug hne htdoc hex hcase hdir
    have hdoc1 : goJoin2 fullT (cs "document.md") ≠ ['.'] := by
      rw [htdoc]
      intro heq
      have := congrArg List.length heq
      simp [cs] at this
    have hdoc2 : goJoin2 fullT (cs "document.md") ≠ ['/'] := by
      rw [htdoc]
      intro heq
      have := congrArg List.length heq
      simp [cs] at this
    obtain ⟨e, he, hpref⟩ := fsExistsP_elim hex hdoc1 hdoc2
    rw [htdoc] at hpref
    have hstrict := isStrictPref_of_append hpref
    simp only [conflictCheck]
    rw [if_pos hne, if_neg (by simp [hcase, hdir]),
      if_pos (by simp [fsIsDirP_of_strict he hstrict,
        fsNonemptyP_of_strict he hstrict])]

/-- C3 witness: both halves of the amended conflict statement at concrete
filesystems (same-parent case-only rename; cross-parent case-only move). -/
theorem C3_witness :
    conflictCheck [⟨cs "data/documents/Projects/Test/document.md", false⟩]
      (cs "data/documents/Projects/test")
      (cs "data/documents/Projects/Test") (cs "Projects/test")
      (cs "Test") =
      some "A document already exists at the target location" ∧
    conflictCheck [⟨cs "data/documents/Other/Test/document.md", false⟩]
      (cs "data/documents/Projects/test") (cs "data/documents/Other/Test")
      (cs "Projects/test") (cs "Test") =
      some "Target directory already exists and is not empty" :=
  ⟨C3_conflict_amended.1
      [⟨cs "data/documents/Projects/Test/document.md", false⟩]
      (cs "data/documents/Projects/test")
      (cs "data/documents/Projects/Test") (cs "Projects/test") (cs "Test")
      (by decide) (by decide) (by decide) (by decide),
   C3_conflict_amended.2
      [⟨cs "data/documents/Other/Test/document.md", false⟩]
      (cs "data/documents/Projects/test") (cs "data/documents/Other/Test")
      (cs "Projects/test") (cs "Test")
      (by decide) (by decide) (by decide) (by decide) (by decide)⟩

/-! ## Lemmas: `Dir`, `Base` and `Join` on clean paths -/

theorem takeWhile_all {P : Char → Bool} {xs : List Char}
    (h : ∀ x ∈ xs, P x = true) : xs.takeWhile P = xs := by
  induction xs with
  | nil => rfl
  | cons a r ih =>
    rw [List.takeWhile_cons_of_pos (h a (List.mem_cons_self a r)),
      ih (fun x hx => h x (List.mem_cons_of_mem a hx))]

theorem takeWhile_append_all {P : Char → Bool} {xs ys : List Char}
    (h : ∀ x ∈ xs, P x = true) :
    (xs ++ ys).takeWhile P = xs ++ ys.takeWhile P := by
  induction xs with
  | nil => rfl
  | cons a r ih =>
    rw [List.cons_append, List.takeWhile_cons_of_pos
      (h a (List.mem_cons_self a r)),
      ih (fun x hx => h x (List.mem_cons_of_mem a hx)), List.cons_append]

theorem lastSlashSplit_noSlash {p : List Char} (h : noSlash p = true) :
    lastSlashSplit p = [] := by
  unfold lastSlashSplit
  rw [takeWhile_all (fun x hx => by
    simp only [decide_eq_true_eq]
    exact fun hc => noSlash_iff.mp h (hc ▸ List.mem_reverse.mp hx))]
  simp

theorem lastSlashSplit_append {A b : List Char} (hb : noSlash b = true) :
    lastSlashSplit (A ++ '/' :: b) = A ++ ['/'] := by
  unfold lastSlashSplit
  have hrev : (A ++ '/' :: b).reverse = b.reverse ++ '/' :: A.reverse := by
    simp
  rw [hrev, takeWhile_append_all (fun x hx => by
    simp only [decide_eq_true_eq]
    exact fun hc => noSlash_iff.mp hb (hc ▸ List.mem_reverse.mp hx))]
  rw [List.takeWhile_cons_of_neg (by simp)]
  simp only [List.append_nil, List.length_append]
  rw [show b.reverse.length = b.reverse.length + 0 from rfl]
  rw [List.drop_left' (by simp)]
  simp

theorem dirOf_noSlash {p : List Char} (h : noSlash p = true) :
    dirOf p = ['.'] := by
  unfold dirOf
  rw [lastSlashSplit_noSlash h]
  rfl

theorem dirOf_append {A b : List Char} (hb : noSlash b = true) :
    dirOf (A ++ '/' :: b) = goClean (A ++ ['/']) := by
  unfold dirOf
  rw [lastSlashSplit_append hb]

theorem joinSlash_ne_dot {M : List (List Char)} (hM : CleanComps M) :
    joinSlash M ≠ ['.'] := by
  intro h
  have hfacts := comps_facts hM
  cases hM0 : M with
  | nil => rw [hM0] at h; cases h
  | cons c M' =>
    have hsp : splitSlash (joinSlash M) = M :=
      splitSlash_joinSlash (fun c hc => (hfacts c hc).2) (by rw [hM0]; simp)
    rw [h] at hsp
    rw [show splitSlash ['.'] = [['.']] from rfl] at hsp
    obtain ⟨ds, gs, hMd, hd, hg⟩ := hM
    rcases List.mem_append.mp (show ['.'] ∈ ds ++ gs by
      rw [← hMd, ← hsp]; exact List.mem_singleton_self _) with hmem | hmem
    · exact absurd (hd _ hmem) (by simp [dotdot])
    · exact absurd (hg _ hmem) (by simp [isGoodSeg])

theorem cleanComps_concat {T : List (List Char)} {b : List Char}
    (hT : CleanComps T) (hb : isGoodSeg b = true) :
    CleanComps (T ++ [b]) := by
  obtain ⟨ds, gs, rfl, hd, hg⟩ := hT
  refine ⟨ds, gs ++ [b], by simp, hd, ?_⟩
  intro c hc
  rcases List.mem_append.mp hc with hc | hc
  · exact hg c hc
  · rw [List.mem_singleton.mp hc]; exact hb

theorem dirOf_join_concat {M : List (List Char)} {b : List Char}
    (hM : CleanComps M) (hM0 : M ≠ []) (hb : noSlash b = true) :
    dirOf (joinSlash (M ++ [b])) = joinSlash M := by
  rw [joinSlash_concat hM0, dirOf_append hb, goClean_joinSlash_slash hM hM0]

theorem baseOf_noSlash {b : List Char} (hb0 : b ≠ [])
    (hb : noSlash b = true) : baseOf b = b := by
  unfold baseOf
  rw [if_neg hb0]
  have hdw : b.reverse.dropWhile (fun c => c = '/') = b.reverse := by
    cases hr : b.reverse with
    | nil => rfl
    | cons x xs =>
      rw [List.dropWhile_cons_of_neg (by
        simp only [decide_eq_true_eq]
        exact fun hc => noSlash_iff.mp hb
          (hc ▸ List.mem_reverse.mp (hr ▸ List.mem_cons_self x xs)))]
  rw [hdw]
  simp only [List.reverse_reverse]
  rw [if_neg hb0, takeWhile_all (fun x hx => by
    simp only [decide_eq_true_eq]
    exact fun hc => noSlash_iff.mp hb (hc ▸ List.mem_reverse.mp hx))]
  simp

theorem baseOf_append {A b : List Char} (hb0 : b ≠ [])
    (hb : noSlash b = true) : baseOf (A ++ '/' :: b) = b := by
  unfold baseOf
  rw [if_neg (by simp)]
  have hrev : (A ++ '/' :: b).reverse = b.reverse ++ '/' :: A.reverse := by
    simp
  have hdw : (b.reverse ++ '/' :: A.reverse).dropWhile (fun c => c = '/') =
      b.reverse ++ '/' :: A.reverse := by
    cases hr : b.reverse with
    | nil => exact absurd (by simpa using hr) hb0
    | cons x xs =>
      rw [List.cons_append, List.dropWhile_cons_of_neg (by
        simp only [decide_eq_true_eq]
        exact fun hc => noSlash_iff.mp hb
          (hc ▸ List.mem_reverse.mp (hr ▸ List.mem_cons_self x xs)))]
  rw [hrev, hdw, ← hrev]
  rw [if_neg (by simp), hrev]
  rw [show (b.reverse ++ '/' :: A.reverse).reverse.reverse =
      b.reverse ++ '/' :: A.reverse by simp]
  rw [takeWhile_append_all (fun x hx => by
    simp only [decide_eq_true_eq]
    exact fun hc => noSlash_iff.mp hb (hc ▸ List.mem_reverse.mp hx))]
  rw [List.takeWhile_cons_of_neg (by simp)]
  simp

theorem goJoin2_nil_left {b : List Char} (hb : b ≠ []) :
    goJoin2 [] b = goClean b := by
  unfold goJoin2 goJoin
  rw [if_pos rfl]
  unfold goJoin
  rw [if_neg hb]
  rfl

theorem goJoin2_cons {a b : List Char} (ha : a ≠ []) :
    goJoin2 a b = goClean (a ++ '/' :: b) := by
  unfold goJoin2 goJoin
  rw [if_neg ha]
  rfl

theorem goJoin2_nil_good {b : List Char} (hb : isGoodSeg b = true) :
    goJoin2 [] b = b := by
  have hb0 : b ≠ [] := (isGoodSeg_iff.mp hb).1
  rw [goJoin2_nil_left hb0]
  have : CleanComps [b] := ⟨[], [b], by simp, by simp, by
    intro c hc; rw [List.mem_singleton.mp hc]; exact hb⟩
  have h := goClean_joinSlash this (by simp)
  exact h

theorem goJoin2_clean {T : List (List Char)} {b : List Char}
    (hT : CleanComps T) (hT0 : T ≠ []) (hb : isGoodSeg b = true) :
    goJoin2 (joinSlash T) b = joinSlash T ++ '/' :: b := by
  have hfacts := comps_facts hT
  have hne := joinSlash_ne_nil (fun c hc => (hfacts c hc).1) hT0
  rw [goJoin2_cons hne, ← joinSlash_concat hT0,
    goClean_joinSlash (cleanComps_concat hT hb) (by simp),
    joinSlash_concat hT0]

/-! ## Claim C7: the resolved target path -/

/-- C7: for classified requests over clean paths (source path a clean
relative path whose final segment is a good slug, target path empty or a
clean relative path, new slug a good segment), the code's resolved target
equals the specification's description: rename-only keeps the parent and
replaces the final segment with the new slug; move-only keeps the source's
final segment and places it under the target (or at the root); move-and-
rename places the new slug under the target (or at the root). -/
theorem C7_resolved_target (ds gs : List (List Char))
    (b slug tgtP : List Char)
    (hd : ∀ c ∈ ds, c = dotdot) (hg : ∀ c ∈ gs, isGoodSeg c = true)
    (hb : isGoodSeg b = true) (hslug : isGoodSeg slug = true)
    (htgt : tgtP = [] ∨ ∃ T, CleanComps T ∧ T ≠ [] ∧ tgtP = joinSlash T) :
    (computeNewPath (joinSlash (ds ++ gs ++ [b])) tgtP slug true false =
      some (specRenameOnly (joinSlash (ds ++ gs ++ [b])) slug)) ∧
    (computeNewPath (joinSlash (ds ++ gs ++ [b])) tgtP slug false true =
      some (specMoveOnly (joinSlash (ds ++ gs ++ [b])) tgtP)) ∧
    (computeNewPath (joinSlash (ds ++ gs ++ [b])) tgtP slug true true =
      some (specMoveRename tgtP slug)) := by
  obtain ⟨hb0, hbdot, hbdd, hbns⟩ := isGoodSeg_iff.mp hb
  have hMco : CleanComps (ds ++ gs) := ⟨ds, gs, rfl, hd, hg⟩
  have hLco : CleanComps (ds ++ gs ++ [b]) := cleanComps_concat hMco hb
  have hLfacts := comps_facts hLco
  have hsplit : splitSlash (joinSlash (ds ++ gs ++ [b])) = ds ++ gs ++ [b] :=
    splitSlash_joinSlash (fun c hc => (hLfacts c hc).2) (by simp)
  have hbase : baseOf (joinSlash (ds ++ gs ++ [b])) = b := by
    by_cases hM : ds ++ gs = []
    · rw [hM, List.nil_append]
      exact baseOf_noSlash hb0 hbns
    · rw [joinSlash_concat hM]
      exact baseOf_append hb0 hbns
  have hseg : (splitSlash (joinSlash (ds ++ gs ++ [b]))).getLastD [] = b := by
    rw [hsplit]
    exact List.getLastD_concat _ _ _
  refine ⟨?_, ?_, ?_⟩
  · -- rename only
    have heq : computeNewPath (joinSlash (ds ++ gs ++ [b])) tgtP slug
        true false = some (goJoin2
          (if dirOf (joinSlash (ds ++ gs ++ [b])) = ['.'] then []
           else dirOf (joinSlash (ds ++ gs ++ [b]))) slug) := rfl
    rw [heq]
    unfold specRenameOnly
    rw [hsplit, List.dropLast_concat]
    by_cases hM : ds ++ gs = []
    · rw [hM, List.nil_append] at hsplit ⊢
      rw [show (joinSlash [b] : List Char) = b from rfl]
      rw [dirOf_noSlash hbns, if_pos rfl, goJoin2_nil_good hslug]
      rfl
    · rw [dirOf_join_concat hMco hM hbns, if_neg (joinSlash_ne_dot hMco),
        goJoin2_clean hMco hM hslug, ← joinSlash_concat hM]
  · -- move only
    have heq : computeNewPath (joinSlash (ds ++ gs ++ [b])) tgtP slug
        false true = some (if tgtP = [] then
          baseOf (joinSlash (ds ++ gs ++ [b]))
        else goJoin2 tgtP (baseOf (joinSlash (ds ++ gs ++ [b])))) := rfl
    rw [heq]
    unfold specMoveOnly
    rw [hseg, hbase]
    rcases htgt with rfl | ⟨T, hT, hT0, rfl⟩
    · rw [if_pos rfl, if_pos rfl]
    · have hTne : joinSlash T ≠ [] :=
        joinSlash_ne_nil (fun c hc => (comps_facts hT c hc).1) hT0
      rw [if_neg hTne, if_neg hTne, goJoin2_clean hT hT0 hb]
  · -- move and rename
    have heq : computeNewPath (joinSlash (ds ++ gs ++ [b])) tgtP slug
        true true = some (if tgtP = [] then slug
          else goJoin2 tgtP slug) := rfl
    rw [heq]
    unfold specMoveRename
    rcases htgt with rfl | ⟨T, hT, hT0, rfl⟩
    · rw [if_pos rfl, if_pos rfl]
    · have hTne : joinSlash T ≠ [] :=
        joinSlash_ne_nil (fun c hc => (comps_facts hT c hc).1) hT0
      rw [if_neg hTne, if_neg hTne, goJoin2_clean hT hT0 hslug]

/-- C7 witness: the three resolved-target equations at the concrete source
`Projects/test`, target `Other`, new slug `Test`. -/
theorem C7_witness :
    (computeNewPath (joinSlash ([] ++ [cs "Projects"] ++ [cs "test"]))
      (cs "Other") (cs "Test") true false =
      some (specRenameOnly (joinSlash ([] ++ [cs "Projects"] ++
        [cs "test"])) (cs "Test"))) ∧
    (computeNewPath (joinSlash ([] ++ [cs "Projects"] ++ [cs "test"]))
      (cs "Other") (cs "Test") false true =
      some (specMoveOnly (joinSlash ([] ++ [cs "Projects"] ++
        [cs "test"])) (cs "Other"))) ∧
    (computeNewPath (joinSlash ([] ++ [cs "Projects"] ++ [cs "test"]))
      (cs "Other") (cs "Test") true true =
      some (specMoveRename (cs "Other") (cs "Test"))) :=
  C7_resolved_target [] [cs "Projects"] (cs "test") (cs "Test") (cs "Other")
    (by simp) (by intro c hc; rw [List.mem_singleton.mp hc]; decide)
    (by decide) (by decide)
    (Or.inr ⟨[cs "Other"], ⟨[], [cs "Other"], by simp, by simp,
      by intro c hc; rw [List.mem_singleton.mp hc]; decide⟩,
      by simp, rfl⟩)

/-! ## Claim C4: rejected requests leave the filesystem untouched -/

theorem fsExists_dot (fs : FS) : fsExistsP fs ['.'] = true := by
  simp [fsExistsP]

theorem fsExists_slash (fs : FS) : fsExistsP fs ['/'] = true := by
  simp [fsExistsP]

theorem fsMkdirAll_of_exists {fs fs' : FS} {p : List Char}
    (hex : fsExistsP fs p = true) (h : fsMkdirAll fs p = some fs') :
    fs' = fs := by
  unfold fsMkdirAll at h
  rw [if_pos hex] at h
  by_cases hdir : fsIsDirP fs p = true
  · rw [if_pos hdir] at h
    cases h
    rfl
  · rw [if_neg hdir] at h
    cases h

theorem fsExistsP_of_pref {fs : FS} {d q : List Char}
    (h : fsExistsP fs q = true) (hpre : isPrefPath d q = true)
    (hd : d ≠ []) : fsExistsP fs d = true := by
  unfold fsExistsP at h
  by_cases h0 : q = []
  · rw [if_pos h0] at h; cases h
  · rw [if_neg h0] at h
    simp only [Bool.or_eq_true, decide_eq_true_eq] at h
    rcases h with (h | h) | h
    · subst h
      rcases isPrefPath_iff.mp hpre with rfl | hpre'
      · exact fsExists_dot fs
      · have hlen := hpre'.length_le
        simp only [List.length_append, List.length_singleton,
          List.length_cons] at hlen
        have hd0 : d = [] := by
          cases d with
          | nil => rfl
          | cons a r => simp at hlen
        exact absurd hd0 hd
    · subst h
      rcases isPrefPath_iff.mp hpre with rfl | hpre'
      · exact fsExists_slash fs
      · have hlen := hpre'.length_le
        simp only [List.length_append, List.length_singleton,
          List.length_cons] at hlen
        have hd0 : d = [] := by
          cases d with
          | nil => rfl
          | cons a r => simp at hlen
        exact absurd hd0 hd
    · obtain ⟨e, he, hq⟩ := List.any_eq_true.mp h
      unfold fsExistsP
      rw [if_neg hd]
      simp only [Bool.or_eq_true, decide_eq_true_eq]
      exact Or.inr (List.any_eq_true.mpr ⟨e, he, isPrefPath_trans hpre hq⟩)

theorem dropLast_append_ne {α : Type} (l1 l2 : List α) (h : l2 ≠ []) :
    (l1 ++ l2).dropLast = l1 ++ l2.dropLast := by
  induction l1 with
  | nil => rfl
  | cons a l1' ih =>
    have hne : l1' ++ l2 ≠ [] := by
      intro hc
      exact h (List.append_eq_nil.mp hc).2
    rw [List.cons_append, List.dropLast_cons_of_ne_nil hne, ih,
      List.cons_append]

theorem cleanComps_dropLast {L : List (List Char)} (hL : CleanComps L) :
    CleanComps L.dropLast := by
  obtain ⟨ds, gs, rfl, hd, hg⟩ := hL
  cases gs with
  | nil =>
    rw [List.append_nil]
    exact ⟨ds.dropLast, [], by simp, fun c hc =>
      hd c ((List.dropLast_sublist ds).subset hc), by simp⟩
  | cons g gs' =>
    rw [dropLast_append_ne ds (g :: gs')
      (by simp : (g :: gs' : List (List Char)) ≠ [])]
    exact ⟨ds, (g :: gs').dropLast, rfl, hd, fun c hc =>
      hg c ((List.dropLast_sublist _).subset hc)⟩

theorem goJoin2_form (a b : List Char) :
    goJoin2 a b = [] ∨ ∃ x, x ≠ [] ∧ goJoin2 a b = goClean x := by
  by_cases ha : a = []
  · subst ha
    by_cases hb : b = []
    · subst hb
      exact Or.inl rfl
    · exact Or.inr ⟨b, hb, goJoin2_nil_left hb⟩
  · exact Or.inr ⟨a ++ '/' :: b, by simp [ha], goJoin2_cons ha⟩

/-- Parent-directory existence transfers down from an existing cleaned
path. -/
theorem fsExists_dirOf {fs : FS} {p : List Char} (hp : p ≠ [])
    (h : fsExistsP fs (goClean p) = true) :
    fsExistsP fs (dirOf (goClean p)) = true := by
  rcases goClean_form p hp with hform | ⟨L, hLg, hform⟩ | ⟨L, hLc, hL0, hform⟩
  · rw [hform, show dirOf ['.'] = ['.'] from by decide]
    exact fsExists_dot fs
  · cases hrev : L.reverse with
    | nil =>
      have hL0 : L = [] := by
        rw [← List.reverse_reverse L, hrev]
        rfl
      rw [hform, hL0,
        show dirOf ('/' :: joinSlash []) = ['/'] from by decide]
      exact fsExists_slash fs
    | cons b Mr =>
      have hLeq : L = Mr.reverse ++ [b] := by
        rw [← List.reverse_reverse L, hrev]
        simp
      have hbg : isGoodSeg b = true := hLg b (by
        rw [hLeq]
        exact List.mem_append_right _ (List.mem_singleton_self b))
      obtain ⟨hb0, hbd, hbdd, hbns⟩ := isGoodSeg_iff.mp hbg
      by_cases hM : Mr.reverse = []
      · rw [hform, hLeq, hM, List.nil_append,
          show joinSlash [b] = b from rfl,
          show ('/' :: b : List Char) = [] ++ '/' :: b from rfl,
          dirOf_append hbns,
          show goClean ([] ++ ['/']) = ['/'] from by decide]
        exact fsExists_slash fs
      · have hMg : ∀ c ∈ Mr.reverse, isGoodSeg c = true := fun c hc =>
          hLg c (by rw [hLeq]; exact List.mem_append_left _ hc)
        have hjoin : ('/' :: joinSlash L : List Char) =
            ('/' :: joinSlash Mr.reverse) ++ '/' :: b := by
          rw [hLeq, joinSlash_concat hM]
          simp
        have hdir : dirOf ('/' :: joinSlash L) =
            '/' :: joinSlash Mr.reverse := by
          rw [hjoin, dirOf_append hbns,
            show (('/' :: joinSlash Mr.reverse : List Char) ++ ['/']) =
              '/' :: (joinSlash Mr.reverse ++ ['/']) from by simp,
            goClean_rooted_slash hMg]
        rw [hform, hdir]
        refine fsExistsP_of_pref
          (show fsExistsP fs ('/' :: joinSlash L) = true from by
            rw [← hform]; exact h) ?_ (by simp)
        rw [isPrefPath_iff, hjoin]
        exact Or.inr ⟨b, by simp⟩
  · cases hrev : L.reverse with
    | nil =>
      exact absurd (by rw [← List.reverse_reverse L, hrev]; rfl) hL0
    | cons b Mr =>
      have hLeq : L = Mr.reverse ++ [b] := by
        rw [← List.reverse_reverse L, hrev]
        simp
      have hfacts := comps_facts hLc
      obtain ⟨hb0, hbns⟩ := hfacts b (by
        rw [hLeq]
        exact List.mem_append_right _ (List.mem_singleton_self b))
      by_cases hM : Mr.reverse = []
      · rw [hform, hLeq, hM, List.nil_append,
          show joinSlash [b] = b from rfl, dirOf_noSlash hbns]
        exact fsExists_dot fs
      · have hMc : CleanComps Mr.reverse := by
          have hdl := cleanComps_dropLast hLc
          rwa [hLeq, List.dropLast_concat] at hdl
        have hdir : dirOf (joinSlash L) = joinSlash Mr.reverse := by
          rw [hLeq]
          exact dirOf_join_concat hMc hM hbns
        rw [hform, hdir]
        have hMne : joinSlash Mr.reverse ≠ [] :=
          joinSlash_ne_nil (fun c hc => (comps_facts hMc c hc).1) hM
        refine fsExistsP_of_pref
          (show fsExistsP fs (joinSlash L) = true from by
            rw [← hform]; exact h) ?_ hMne
        rw [isPrefPath_iff, hLeq, joinSlash_concat hM]
        exact Or.inr ⟨b, by simp⟩

theorem moveFinish_C4 (cfg : Config) (fs : FS)
    (srcP slug newPath fullS fullT : List Char)
    (hdir : fsExistsP fs (dirOf fullS) = true)
    (hst : (moveFinish cfg fs srcP slug newPath fullS fullT).status = 400 ∨
      (moveFinish cfg fs srcP slug newPath fullS fullT).status = 409) :
    (moveFinish cfg fs srcP slug newPath fullS fullT).fs = fs := by
  cases hcc : conflictCheck fs fullS fullT srcP slug with
  | some msg => simp only [moveFinish, hcc]
  | none =>
    cases hmk : fsMkdirAll fs (dirOf fullT) with
    | none =>
      simp only [moveFinish, hcc, hmk] at hst
      rcases hst with h | h <;> simp at h
    | some fs1 =>
      by_cases hsame : fullS = fullT
      · simp only [moveFinish, hcc, hmk, if_pos hsame]
        exact fsMkdirAll_of_exists (hsame ▸ hdir) hmk
      · cases hrn : fsRename fs1 fullS fullT with
        | none =>
          simp only [moveFinish, hcc, hmk, if_neg hsame, hrn] at hst
          rcases hst with h | h <;> simp at h
        | some fs2 =>
          simp only [moveFinish, hcc, hmk, if_neg hsame, hrn] at hst
          rcases hst with h | h <;>
            (rw [show (afterPrimary cfg fs2 srcP newPath).status = 200
                from rfl] at h
             simp at h)

theorem moveClassified_C4 (cfg : Config) (fs : FS)
    (srcP tgtP slug : List Char)
    (hst : (moveClassified cfg fs srcP tgtP slug).status = 400 ∨
      (moveClassified cfg fs srcP tgtP slug).status = 409) :
    (moveClassified cfg fs srcP tgtP slug).fs = fs := by
  by_cases hex : fsExistsP fs
      (goJoin2 (goJoin2 cfg.rootDir cfg.documentsDir) srcP) = true
  · have hdir : fsExistsP fs
        (dirOf (goJoin2 (goJoin2 cfg.rootDir cfg.documentsDir) srcP)) =
        true := by
      rcases goJoin2_form (goJoin2 cfg.rootDir cfg.documentsDir) srcP with
        hnil | ⟨x, hx0, hxe⟩
      · rw [hnil] at hex
        simp [fsExistsP] at hex
      · rw [hxe] at hex ⊢
        exact fsExists_dirOf hx0 hex
    cases hnp : computeNewPath srcP tgtP slug (classify srcP tgtP slug).1
        (classify srcP tgtP slug).2.2 with
    | none =>
      simp only [moveClassified, hex, Bool.not_true, hnp]
      rw [if_neg (by simp)]
    | some newPath =>
      simp only [moveClassified, hex, Bool.not_true, hnp] at hst ⊢
      rw [if_neg (by simp)] at hst ⊢
      exact moveFinish_C4 cfg fs srcP slug newPath _ _ hdir hst
  · have hex' : fsExistsP fs
        (goJoin2 (goJoin2 cfg.rootDir cfg.documentsDir) srcP) = false := by
      cases hh : fsExistsP fs
          (goJoin2 (goJoin2 cfg.rootDir cfg.documentsDir) srcP)
      · rfl
      · exact absurd hh hex
    simp only [moveClassified, hex']
    rw [if_pos (by simp)]

/-- C4: every request the handler rejects with a validation error (400,
including the same-path no-op guard, where the preceding `MkdirAll` is a
no-op because the target's parent is the existing source's parent) or a
conflict (409) leaves the filesystem exactly as it was. -/
theorem C4_no_mutation_on_reject (cfg : Config) (fs : FS)
    (store : SessionStore) (method : String) (cookie : Option String)
    (body : Option MoveRequest)
    (hst : (moveDocumentHandler cfg fs store method cookie body).status =
        400 ∨
      (moveDocumentHandler cfg fs store method cookie body).status = 409) :
    (moveDocumentHandler cfg fs store method cookie body).fs = fs := by
  by_cases hm : method ≠ "POST"
  · simp only [moveDocumentHandler, if_pos hm]
  simp only [moveDocumentHandler, if_neg hm] at hst ⊢
  cases hsess : getSessionTok store cookie with
  | none => simp only [hsess]
  | some s =>
    simp only [hsess] at hst ⊢
    cases body with
    | none => simp only []
    | some req =>
      simp only [] at hst ⊢
      by_cases h0 : req.sourcePath = []
      · rw [if_pos h0]
      rw [if_neg h0] at hst ⊢
      by_cases h1 : (cleanPath req.targetPath = [] &&
          req.newSlug = []) = true
      · rw [if_pos h1]
      rw [if_neg h1] at hst ⊢
      by_cases h2 : (cleanPath req.sourcePath = [] ||
          cleanPath req.sourcePath = ['/'] ||
          cleanPath req.sourcePath = cs "pages/home" ||
          eqFold (cleanPath req.sourcePath) (cs "pages/home") ||
          List.isSuffixOf (cs "/homepage") (cleanPath req.sourcePath)) = true
      · rw [if_pos h2]
      rw [if_neg h2] at hst ⊢
      by_cases h3 : (cleanPath req.targetPath = cs "pages/home" ||
          eqFold (cleanPath req.targetPath) (cs "pages/home")) = true
      · rw [if_pos h3]
      rw [if_neg h3] at hst ⊢
      exact moveClassified_C4 cfg fs (cleanPath req.sourcePath)
        (cleanPath req.targetPath) req.newSlug hst

/-- C4 witness: a rejected conflict (409) leaves the concrete filesystem
unchanged. -/
theorem C4_witness :
    (moveDocumentHandler ⟨cs "data", cs "documents", true⟩
      [⟨cs "data/documents/Projects/test/document.md", false⟩,
       ⟨cs "data/documents/Other/Test/document.md", false⟩]
      [("tok", ⟨"ed", "editor", 0⟩)] "POST" (some "tok")
      (some ⟨cs "Projects/test", cs "Other", cs "Test"⟩)).fs =
      [⟨cs "data/documents/Projects/test/document.md", false⟩,
       ⟨cs "data/documents/Other/Test/document.md", false⟩] :=
  C4_no_mutation_on_reject ⟨cs "data", cs "documents", true⟩
    [⟨cs "data/documents/Projects/test/document.md", false⟩,
     ⟨cs "data/documents/Other/Test/document.md", false⟩]
    [("tok", ⟨"ed", "editor", 0⟩)] "POST" (some "tok")
    (some ⟨cs "Projects/test", cs "Other", cs "Test"⟩)
    (Or.inr (by decide))

end WikiGo
